import Mathlib

/-!
Verification of the VDFS archive builder (`src/vdfs/mod.rs`, `src/vdfs/filetree.rs`).

Shallow embedding conventions:
* Machine integers (`u32`, `i32`, `u64`, `usize`) are modelled as `Nat`/`Int`
  with explicit `% 2^32` where the source performs a narrowing cast or where
  wrapping arithmetic matters.
* `PathBuf` values attached to file nodes are modelled by the data the path
  denotes on disk (`FileData`: the `fs::metadata` length and the `fs::read`
  content, each `Option` to model I/O failure).  Directory read failures are
  modelled by a `readable` flag on the raw filesystem snapshot.
* `process::exit(code)` / panics are modelled by `Except Nat` with the exit
  code (`101` for a Rust panic).
* Rust's `String::to_uppercase` (used only as a sort key) is modelled by the
  Unicode uppercase mapping `uppercaseMapping` (the UnicodeData.txt simple
  mappings plus the unconditional SpecialCasing.txt expansions); the sort key
  `upperKey` is the UTF-8 byte sequence of the upper-cased name, whose
  lexicographic order is exactly Rust's byte-wise `String` comparison.
  `str::to_ascii_uppercase` is modelled byte-wise by `asciiUpper`.
-/

/-- Number of values of a `u32`; narrowing casts reduce modulo this. -/
def U32 : Nat := 4294967296

/-- Byte-level ASCII upper-casing, the model of `u8::to_ascii_uppercase`
(used by `str::to_ascii_uppercase`, which maps each byte). -/
def asciiUpper (b : Nat) : Nat := if 97 ≤ b ∧ b ≤ 122 then b - 32 else b

/-- UTF-8 encoding of a single code point (byte values as `Nat`). -/
def codeUtf8 (n : Nat) : List Nat :=
  if n < 128 then [n]
  else if n < 2048 then [192 + n / 64, 128 + n % 64]
  else if n < 65536 then [224 + n / 4096, 128 + n / 64 % 64, 128 + n % 64]
  else [240 + n / 262144, 128 + n / 4096 % 64, 128 + n / 64 % 64, 128 + n % 64]

/-- UTF-8 encoding of a single character (byte values as `Nat`). -/
def charUtf8Bytes (c : Char) : List Nat := codeUtf8 c.toNat

/-- The UTF-8 bytes of a string, the model of `str::as_bytes` /
`String::len` (which is the byte length). -/
def strBytes (s : String) : List Nat := (s.data.map charUtf8Bytes).flatten

/-- `i as u32` for a Rust `i32` value modelled as `Int` (two's complement cast). -/
def intToU32 (i : Int) : Nat := (i % (U32 : Int)).toNat

/-- Little-endian byte encoding of a `u32` value (model of `u32::to_le_bytes`). -/
def u32le (n : Nat) : List Nat := [n % 256, n / 256 % 256, n / 65536 % 256, n / 16777216 % 256]

/-! ## The filesystem model and `FileSystemNode` (filetree.rs) -/

/-- What a file's `PathBuf` denotes on disk: the `fs::metadata(path).len()`
value and the `fs::read(path)` content; `none` models the corresponding
I/O call failing. -/
structure FileData where
  meta : Option Nat
  content : Option (List Nat)
deriving DecidableEq, Repr

/-- A snapshot of the filesystem subtree the builder walks.  A directory
with `readable = false` models `std::fs::read_dir` failing on it (its
`entries` are what is on disk but cannot be listed). -/
inductive RawFS where
  | file (name : String) (data : FileData)
  | dir (name : String) (readable : Bool) (entries : List RawFS)

/-- `FileSystemNode` from filetree.rs.  The `path` field of the source is
modelled by `data` for files (what the path denotes); for directories the
path is dropped (it is only used for the recursive walk). -/
inductive FileSystemNode where
  | directory (name : String) (children : List FileSystemNode) (level : Int) (is_last : Bool)
  | file (name : String) (data : FileData) (level : Int) (is_last : Bool)

namespace FileSystemNode

/-- Children of a node (directories' child list; files have none). -/
def childrenOf : FileSystemNode → List FileSystemNode
  | .directory _ cs _ _ => cs
  | .file .. => []

def nodeName : FileSystemNode → String
  | .directory n _ _ _ => n
  | .file n _ _ _ => n

def isDirNode : FileSystemNode → Bool
  | .directory .. => true
  | .file .. => false

def nodeIsLast : FileSystemNode → Bool
  | .directory _ _ _ il => il
  | .file _ _ _ il => il

def nodeLevel : FileSystemNode → Int
  | .directory _ _ lv _ => lv
  | .file _ _ lv _ => lv

def fileDataOf : FileSystemNode → Option FileData
  | .directory .. => none
  | .file _ d _ _ => some d

-- Number of nodes in a subtree (each directory or file counts 1).
mutual
def nodeCount : FileSystemNode → Nat
  | .file .. => 1
  | .directory _ cs _ _ => 1 + listNodeCount cs

def listNodeCount : List FileSystemNode → Nat
  | [] => 0
  | c :: cs => nodeCount c + listNodeCount cs
end

theorem listNodeCount_eq (cs : List FileSystemNode) :
    listNodeCount cs = (cs.map nodeCount).sum := by
  induction cs with
  | nil => rfl
  | cons c cs ih => rw [listNodeCount, ih, List.map_cons, List.sum_cons]

theorem nodeCount_file (n : String) (d : FileData) (lv : Int) (il : Bool) :
    nodeCount (.file n d lv il) = 1 := rfl

theorem nodeCount_dir (n : String) (cs : List FileSystemNode) (lv : Int) (il : Bool) :
    nodeCount (.directory n cs lv il) = 1 + (cs.map nodeCount).sum := by
  rw [nodeCount, listNodeCount_eq]

theorem nodeCount_children_succ (n : FileSystemNode) :
    nodeCount n = (n.childrenOf.map nodeCount).sum + 1 := by
  cases n with
  | directory nm cs lv il => rw [nodeCount_dir, childrenOf]; omega
  | file nm d lv il => rw [nodeCount_file, childrenOf]; simp

theorem nodeCount_pos (t : FileSystemNode) : 0 < nodeCount t := by
  cases t with
  | directory n cs lv il => rw [nodeCount_dir]; omega
  | file n d lv il => rw [nodeCount_file]; omega

theorem sum_childCount_lt (n : String) (cs : List FileSystemNode) (lv : Int) (il : Bool) :
    (cs.map nodeCount).sum < nodeCount (.directory n cs lv il) := by
  rw [nodeCount_dir]; omega

-- Structural equality test on nodes, the model of the derived `PartialEq`
-- on `FileSystemNode` (the source's `node != &self.fs` check).
mutual
def nodeBeq : FileSystemNode → FileSystemNode → Bool
  | .file n d lv il, .file n' d' lv' il' =>
      decide (n = n') && decide (d = d') && decide (lv = lv') && decide (il = il')
  | .directory n cs lv il, .directory n' cs' lv' il' =>
      decide (n = n') && decide (lv = lv') && decide (il = il') && nodeListBeq cs cs'
  | _, _ => false

def nodeListBeq : List FileSystemNode → List FileSystemNode → Bool
  | [], [] => true
  | c :: cs, c' :: cs' => nodeBeq c c' && nodeListBeq cs cs'
  | _, _ => false
end

/-- Whether `target` occurs in the subtree rooted at a node (the node
itself included). -/
def occursIn (target : FileSystemNode) : FileSystemNode → Bool
  | .file n d lv il => nodeBeq (.file n d lv il) target
  | .directory n cs lv il =>
      nodeBeq (.directory n cs lv il) target ||
        (cs.attach.map (fun c => occursIn target c.1)).any id
decreasing_by
  have := List.sizeOf_lt_of_mem c.2
  simp only [FileSystemNode.directory.sizeOf_spec]
  omega

/-- Custom induction principle for the nested inductive. -/
theorem inductionOn {P : FileSystemNode → Prop}
    (hd : ∀ name cs level is_last, (∀ c ∈ cs, P c) → P (.directory name cs level is_last))
    (hf : ∀ name data level is_last, P (.file name data level is_last))
    (t : FileSystemNode) : P t :=
  @FileSystemNode.rec P (fun cs => ∀ c ∈ cs, P c)
    (fun name cs level is_last ih => hd name cs level is_last ih)
    hf
    (fun c h => absurd h (List.not_mem_nil c))
    (fun c cs ihc ihcs d hmem => by
      rcases List.mem_cons.mp hmem with h | h
      · exact h ▸ ihc
      · exact ihcs d h)
    t

theorem nodeBeq_iff : ∀ a b : FileSystemNode, nodeBeq a b = true ↔ a = b := by
  intro a
  induction a using inductionOn with
  | hf name data level is_last =>
    intro b
    cases b with
    | file n' d' lv' il' =>
      simp [nodeBeq, FileSystemNode.file.injEq]
      tauto
    | directory n' cs' lv' il' => simp [nodeBeq]
  | hd name cs level is_last ih =>
    intro b
    cases b with
    | file n' d' lv' il' => simp [nodeBeq]
    | directory n' cs' lv' il' =>
      have hlist : ∀ cs₀ : List FileSystemNode, (∀ c ∈ cs₀, ∀ b, nodeBeq c b = true ↔ c = b) →
          ∀ cs₁, nodeListBeq cs₀ cs₁ = true ↔ cs₀ = cs₁ := by
        intro cs₀
        induction cs₀ with
        | nil =>
          intro _ cs₁; cases cs₁ <;> simp [nodeListBeq]
        | cons c cs₀ ihl =>
          intro hmem cs₁
          cases cs₁ with
          | nil => simp [nodeListBeq]
          | cons c' cs₁' =>
            rw [nodeListBeq]
            simp only [Bool.and_eq_true, hmem c (by simp), ihl (fun x hx b => hmem x (by simp [hx]) b),
              List.cons.injEq]
      rw [nodeBeq]
      simp only [Bool.and_eq_true, decide_eq_true_eq, hlist cs ih cs',
        FileSystemNode.directory.injEq]
      tauto

theorem nodeBeq_self (a : FileSystemNode) : nodeBeq a a = true := (nodeBeq_iff a a).mpr rfl

theorem occursIn_dir (target : FileSystemNode) (n : String) (cs : List FileSystemNode)
    (lv : Int) (il : Bool) :
    occursIn target (.directory n cs lv il) =
      (nodeBeq (.directory n cs lv il) target || cs.any (occursIn target)) := by
  rw [occursIn]
  congr 1
  rw [List.attach_map_val cs (occursIn target)]
  induction cs with
  | nil => rfl
  | cons c cs ihc => simp only [List.map_cons, List.any_cons, ihc, id]

theorem occursIn_file (target : FileSystemNode) (n : String) (d : FileData)
    (lv : Int) (il : Bool) :
    occursIn target (.file n d lv il) = nodeBeq (.file n d lv il) target := by
  rw [occursIn]

theorem occursIn_self (t : FileSystemNode) : occursIn t t = true := by
  cases t with
  | directory n cs lv il => rw [occursIn_dir]; simp [nodeBeq_self]
  | file n d lv il => rw [occursIn_file]; simp [nodeBeq_self]

/-- Every level occurring in the subtree of `t` is `≥ k`. -/
def levelsGe (k : Int) : FileSystemNode → Prop
  | .file _ _ lv _ => k ≤ lv
  | .directory _ cs lv _ => k ≤ lv ∧ ∀ c ∈ cs.attach, levelsGe k c.1
decreasing_by
  have := List.sizeOf_lt_of_mem c.2
  simp only [FileSystemNode.directory.sizeOf_spec]
  omega

theorem levelsGe_dir (k : Int) (n : String) (cs : List FileSystemNode) (lv : Int) (il : Bool) :
    levelsGe k (.directory n cs lv il) ↔ (k ≤ lv ∧ ∀ c ∈ cs, levelsGe k c) := by
  rw [levelsGe]
  constructor
  · rintro ⟨h1, h2⟩
    exact ⟨h1, fun c hc => h2 ⟨c, hc⟩ (List.mem_attach _ _)⟩
  · rintro ⟨h1, h2⟩
    exact ⟨h1, fun c _ => h2 c.1 c.2⟩

theorem levelsGe_file (k : Int) (n : String) (d : FileData) (lv : Int) (il : Bool) :
    levelsGe k (.file n d lv il) ↔ k ≤ lv := by
  rw [levelsGe]

theorem levelsGe_level {k : Int} {t : FileSystemNode} (h : levelsGe k t) : k ≤ t.nodeLevel := by
  cases t with
  | directory n cs lv il => exact ((levelsGe_dir k n cs lv il).mp h).1
  | file n d lv il => exact (levelsGe_file k n d lv il).mp h

/-- A node whose subtree levels are all `≥ k` cannot contain a node whose
level is `< k`. -/
theorem occursIn_false_of_levels {target t : FileSystemNode} {k : Int}
    (ht : levelsGe k t) (htar : target.nodeLevel < k) : occursIn target t = false := by
  induction t using inductionOn with
  | hf name data level is_last =>
    rw [occursIn_file]
    rw [levelsGe_file] at ht
    cases hb : nodeBeq (FileSystemNode.file name data level is_last) target
    · rfl
    · have heq := (nodeBeq_iff _ _).mp hb
      rw [← heq] at htar
      simp only [nodeLevel] at htar
      omega
  | hd name cs level is_last ih =>
    rw [occursIn_dir]
    rw [levelsGe_dir] at ht
    simp only [Bool.or_eq_false_iff]
    refine ⟨?_, ?_⟩
    · cases hb : nodeBeq (FileSystemNode.directory name cs level is_last) target
      · rfl
      · have heq := (nodeBeq_iff _ _).mp hb
        rw [← heq] at htar
        simp only [nodeLevel] at htar
        omega
    · simp only [List.any_eq_false]
      intro c hc
      simp [ih c hc (ht.2 c hc)]

end FileSystemNode

/-! ## The tree builder (filetree.rs) -/

namespace FileSystemNode

/-- The unconditional multi-character uppercase mappings of SpecialCasing.txt
(Unicode 14.0): the cases where Rust's `char::to_uppercase` expands one
character to several (ß to SS, the Latin and Armenian ligatures, the Greek
iota-subscript forms, and so on). -/
def uppercaseSpecial : Nat → Option (List Nat)
  | 0xDF => some [0x53, 0x53]
  | 0x149 => some [0x2BC, 0x4E]
  | 0x1F0 => some [0x4A, 0x30C]
  | 0x390 => some [0x399, 0x308, 0x301]
  | 0x3B0 => some [0x3A5, 0x308, 0x301]
  | 0x587 => some [0x535, 0x552]
  | 0x1E96 => some [0x48, 0x331]
  | 0x1E97 => some [0x54, 0x308]
  | 0x1E98 => some [0x57, 0x30A]
  | 0x1E99 => some [0x59, 0x30A]
  | 0x1E9A => some [0x41, 0x2BE]
  | 0x1F50 => some [0x3A5, 0x313]
  | 0x1F52 => some [0x3A5, 0x313, 0x300]
  | 0x1F54 => some [0x3A5, 0x313, 0x301]
  | 0x1F56 => some [0x3A5, 0x313, 0x342]
  | 0x1F80 => some [0x1F08, 0x399]
  | 0x1F81 => some [0x1F09, 0x399]
  | 0x1F82 => some [0x1F0A, 0x399]
  | 0x1F83 => some [0x1F0B, 0x399]
  | 0x1F84 => some [0x1F0C, 0x399]
  | 0x1F85 => some [0x1F0D, 0x399]
  | 0x1F86 => some [0x1F0E, 0x399]
  | 0x1F87 => some [0x1F0F, 0x399]
  | 0x1F88 => some [0x1F08, 0x399]
  | 0x1F89 => some [0x1F09, 0x399]
  | 0x1F8A => some [0x1F0A, 0x399]
  | 0x1F8B => some [0x1F0B, 0x399]
  | 0x1F8C => some [0x1F0C, 0x399]
  | 0x1F8D => some [0x1F0D, 0x399]
  | 0x1F8E => some [0x1F0E, 0x399]
  | 0x1F8F => some [0x1F0F, 0x399]
  | 0x1F90 => some [0x1F28, 0x399]
  | 0x1F91 => some [0x1F29, 0x399]
  | 0x1F92 => some [0x1F2A, 0x399]
  | 0x1F93 => some [0x1F2B, 0x399]
  | 0x1F94 => some [0x1F2C, 0x399]
  | 0x1F95 => some [0x1F2D, 0x399]
  | 0x1F96 => some [0x1F2E, 0x399]
  | 0x1F97 => some [0x1F2F, 0x399]
  | 0x1F98 => some [0x1F28, 0x399]
  | 0x1F99 => some [0x1F29, 0x399]
  | 0x1F9A => some [0x1F2A, 0x399]
  | 0x1F9B => some [0x1F2B, 0x399]
  | 0x1F9C => some [0x1F2C, 0x399]
  | 0x1F9D => some [0x1F2D, 0x399]
  | 0x1F9E => some [0x1F2E, 0x399]
  | 0x1F9F => some [0x1F2F, 0x399]
  | 0x1FA0 => some [0x1F68, 0x399]
  | 0x1FA1 => some [0x1F69, 0x399]
  | 0x1FA2 => some [0x1F6A, 0x399]
  | 0x1FA3 => some [0x1F6B, 0x399]
  | 0x1FA4 => some [0x1F6C, 0x399]
  | 0x1FA5 => some [0x1F6D, 0x399]
  | 0x1FA6 => some [0x1F6E, 0x399]
  | 0x1FA7 => some [0x1F6F, 0x399]
  | 0x1FA8 => some [0x1F68, 0x399]
  | 0x1FA9 => some [0x1F69, 0x399]
  | 0x1FAA => some [0x1F6A, 0x399]
  | 0x1FAB => some [0x1F6B, 0x399]
  | 0x1FAC => some [0x1F6C, 0x399]
  | 0x1FAD => some [0x1F6D, 0x399]
  | 0x1FAE => some [0x1F6E, 0x399]
  | 0x1FAF => some [0x1F6F, 0x399]
  | 0x1FB2 => some [0x1FBA, 0x399]
  | 0x1FB3 => some [0x391, 0x399]
  | 0x1FB4 => some [0x386, 0x399]
  | 0x1FB6 => some [0x391, 0x342]
  | 0x1FB7 => some [0x391, 0x342, 0x399]
  | 0x1FBC => some [0x391, 0x399]
  | 0x1FC2 => some [0x1FCA, 0x399]
  | 0x1FC3 => some [0x397, 0x399]
  | 0x1FC4 => some [0x389, 0x399]
  | 0x1FC6 => some [0x397, 0x342]
  | 0x1FC7 => some [0x397, 0x342, 0x399]
  | 0x1FCC => some [0x397, 0x399]
  | 0x1FD2 => some [0x399, 0x308, 0x300]
  | 0x1FD3 => some [0x399, 0x308, 0x301]
  | 0x1FD6 => some [0x399, 0x342]
  | 0x1FD7 => some [0x399, 0x308, 0x342]
  | 0x1FE2 => some [0x3A5, 0x308, 0x300]
  | 0x1FE3 => some [0x3A5, 0x308, 0x301]
  | 0x1FE4 => some [0x3A1, 0x313]
  | 0x1FE6 => some [0x3A5, 0x342]
  | 0x1FE7 => some [0x3A5, 0x308, 0x342]
  | 0x1FF2 => some [0x1FFA, 0x399]
  | 0x1FF3 => some [0x3A9, 0x399]
  | 0x1FF4 => some [0x38F, 0x399]
  | 0x1FF6 => some [0x3A9, 0x342]
  | 0x1FF7 => some [0x3A9, 0x342, 0x399]
  | 0x1FFC => some [0x3A9, 0x399]
  | 0xFB00 => some [0x46, 0x46]
  | 0xFB01 => some [0x46, 0x49]
  | 0xFB02 => some [0x46, 0x4C]
  | 0xFB03 => some [0x46, 0x46, 0x49]
  | 0xFB04 => some [0x46, 0x46, 0x4C]
  | 0xFB05 => some [0x53, 0x54]
  | 0xFB06 => some [0x53, 0x54]
  | 0xFB13 => some [0x544, 0x546]
  | 0xFB14 => some [0x544, 0x535]
  | 0xFB15 => some [0x544, 0x53B]
  | 0xFB16 => some [0x54E, 0x546]
  | 0xFB17 => some [0x544, 0x53D]
  | _ => none

/-- Single-character uppercase mappings (UnicodeData.txt field 12),
code points 0x61 to 0x252, compressed into arithmetic runs. -/
def uppercaseSimpleA (n : Nat) : Option Nat :=
  if 0x61 ≤ n ∧ n ≤ 0x7A then some (n - 32) else
  if n = 0xB5 then some (0x39C) else
  if 0xE0 ≤ n ∧ n ≤ 0xF6 then some (n - 32) else
  if 0xF8 ≤ n ∧ n ≤ 0xFE then some (n - 32) else
  if n = 0xFF then some (0x178) else
  if 0x101 ≤ n ∧ n ≤ 0x12F ∧ n % 2 = 1 then some (n - 1) else
  if n = 0x131 then some (0x49) else
  if 0x133 ≤ n ∧ n ≤ 0x137 ∧ n % 2 = 1 then some (n - 1) else
  if 0x13A ≤ n ∧ n ≤ 0x148 ∧ n % 2 = 0 then some (n - 1) else
  if 0x14B ≤ n ∧ n ≤ 0x177 ∧ n % 2 = 1 then some (n - 1) else
  if 0x17A ≤ n ∧ n ≤ 0x17E ∧ n % 2 = 0 then some (n - 1) else
  if n = 0x17F then some (0x53) else
  if n = 0x180 then some (0x243) else
  if 0x183 ≤ n ∧ n ≤ 0x185 ∧ n % 2 = 1 then some (n - 1) else
  if n = 0x188 then some (0x187) else
  if n = 0x18C then some (0x18B) else
  if n = 0x192 then some (0x191) else
  if n = 0x195 then some (0x1F6) else
  if n = 0x199 then some (0x198) else
  if n = 0x19A then some (0x23D) else
  if n = 0x19E then some (0x220) else
  if 0x1A1 ≤ n ∧ n ≤ 0x1A5 ∧ n % 2 = 1 then some (n - 1) else
  if n = 0x1A8 then some (0x1A7) else
  if n = 0x1AD then some (0x1AC) else
  if n = 0x1B0 then some (0x1AF) else
  if 0x1B4 ≤ n ∧ n ≤ 0x1B6 ∧ n % 2 = 0 then some (n - 1) else
  if n = 0x1B9 then some (0x1B8) else
  if n = 0x1BD then some (0x1BC) else
  if n = 0x1BF then some (0x1F7) else
  if n = 0x1C5 then some (0x1C4) else
  if n = 0x1C6 then some (0x1C4) else
  if n = 0x1C8 then some (0x1C7) else
  if n = 0x1C9 then some (0x1C7) else
  if n = 0x1CB then some (0x1CA) else
  if n = 0x1CC then some (0x1CA) else
  if 0x1CE ≤ n ∧ n ≤ 0x1DC ∧ n % 2 = 0 then some (n - 1) else
  if n = 0x1DD then some (0x18E) else
  if 0x1DF ≤ n ∧ n ≤ 0x1EF ∧ n % 2 = 1 then some (n - 1) else
  if n = 0x1F2 then some (0x1F1) else
  if n = 0x1F3 then some (0x1F1) else
  if n = 0x1F5 then some (0x1F4) else
  if 0x1F9 ≤ n ∧ n ≤ 0x21F ∧ n % 2 = 1 then some (n - 1) else
  if 0x223 ≤ n ∧ n ≤ 0x233 ∧ n % 2 = 1 then some (n - 1) else
  if n = 0x23C then some (0x23B) else
  if 0x23F ≤ n ∧ n ≤ 0x240 then some (n + 10815) else
  if n = 0x242 then some (0x241) else
  if 0x247 ≤ n ∧ n ≤ 0x24F ∧ n % 2 = 1 then some (n - 1) else
  if n = 0x250 then some (0x2C6F) else
  if n = 0x251 then some (0x2C6D) else
  if n = 0x252 then some (0x2C70) else
  none

/-- Single-character uppercase mappings (UnicodeData.txt field 12),
code points 0x253 to 0x3F0, compressed into arithmetic runs. -/
def uppercaseSimpleB (n : Nat) : Option Nat :=
  if n = 0x253 then some (0x181) else
  if n = 0x254 then some (0x186) else
  if 0x256 ≤ n ∧ n ≤ 0x257 then some (n - 205) else
  if n = 0x259 then some (0x18F) else
  if n = 0x25B then some (0x190) else
  if n = 0x25C then some (0xA7AB) else
  if n = 0x260 then some (0x193) else
  if n = 0x261 then some (0xA7AC) else
  if n = 0x263 then some (0x194) else
  if n = 0x265 then some (0xA78D) else
  if n = 0x266 then some (0xA7AA) else
  if n = 0x268 then some (0x197) else
  if n = 0x269 then some (0x196) else
  if n = 0x26A then some (0xA7AE) else
  if n = 0x26B then some (0x2C62) else
  if n = 0x26C then some (0xA7AD) else
  if n = 0x26F then some (0x19C) else
  if n = 0x271 then some (0x2C6E) else
  if n = 0x272 then some (0x19D) else
  if n = 0x275 then some (0x19F) else
  if n = 0x27D then some (0x2C64) else
  if n = 0x280 then some (0x1A6) else
  if n = 0x282 then some (0xA7C5) else
  if n = 0x283 then some (0x1A9) else
  if n = 0x287 then some (0xA7B1) else
  if n = 0x288 then some (0x1AE) else
  if n = 0x289 then some (0x244) else
  if 0x28A ≤ n ∧ n ≤ 0x28B then some (n - 217) else
  if n = 0x28C then some (0x245) else
  if n = 0x292 then some (0x1B7) else
  if n = 0x29D then some (0xA7B2) else
  if n = 0x29E then some (0xA7B0) else
  if n = 0x345 then some (0x399) else
  if 0x371 ≤ n ∧ n ≤ 0x373 ∧ n % 2 = 1 then some (n - 1) else
  if n = 0x377 then some (0x376) else
  if 0x37B ≤ n ∧ n ≤ 0x37D then some (n + 130) else
  if n = 0x3AC then some (0x386) else
  if 0x3AD ≤ n ∧ n ≤ 0x3AF then some (n - 37) else
  if 0x3B1 ≤ n ∧ n ≤ 0x3C1 then some (n - 32) else
  if n = 0x3C2 then some (0x3A3) else
  if 0x3C3 ≤ n ∧ n ≤ 0x3CB then some (n - 32) else
  if n = 0x3CC then some (0x38C) else
  if 0x3CD ≤ n ∧ n ≤ 0x3CE then some (n - 63) else
  if n = 0x3D0 then some (0x392) else
  if n = 0x3D1 then some (0x398) else
  if n = 0x3D5 then some (0x3A6) else
  if n = 0x3D6 then some (0x3A0) else
  if n = 0x3D7 then some (0x3CF) else
  if 0x3D9 ≤ n ∧ n ≤ 0x3EF ∧ n % 2 = 1 then some (n - 1) else
  if n = 0x3F0 then some (0x39A) else
  none

/-- Single-character uppercase mappings (UnicodeData.txt field 12),
code points 0x3F1 to 0x214E, compressed into arithmetic runs. -/
def uppercaseSimpleC (n : Nat) : Option Nat :=
  if n = 0x3F1 then some (0x3A1) else
  if n = 0x3F2 then some (0x3F9) else
  if n = 0x3F3 then some (0x37F) else
  if n = 0x3F5 then some (0x395) else
  if n = 0x3F8 then some (0x3F7) else
  if n = 0x3FB then some (0x3FA) else
  if 0x430 ≤ n ∧ n ≤ 0x44F then some (n - 32) else
  if 0x450 ≤ n ∧ n ≤ 0x45F then some (n - 80) else
  if 0x461 ≤ n ∧ n ≤ 0x481 ∧ n % 2 = 1 then some (n - 1) else
  if 0x48B ≤ n ∧ n ≤ 0x4BF ∧ n % 2 = 1 then some (n - 1) else
  if 0x4C2 ≤ n ∧ n ≤ 0x4CE ∧ n % 2 = 0 then some (n - 1) else
  if n = 0x4CF then some (0x4C0) else
  if 0x4D1 ≤ n ∧ n ≤ 0x52F ∧ n % 2 = 1 then some (n - 1) else
  if 0x561 ≤ n ∧ n ≤ 0x586 then some (n - 48) else
  if 0x10D0 ≤ n ∧ n ≤ 0x10FA then some (n + 3008) else
  if 0x10FD ≤ n ∧ n ≤ 0x10FF then some (n + 3008) else
  if 0x13F8 ≤ n ∧ n ≤ 0x13FD then some (n - 8) else
  if n = 0x1C80 then some (0x412) else
  if n = 0x1C81 then some (0x414) else
  if n = 0x1C82 then some (0x41E) else
  if 0x1C83 ≤ n ∧ n ≤ 0x1C84 then some (n - 6242) else
  if n = 0x1C85 then some (0x422) else
  if n = 0x1C86 then some (0x42A) else
  if n = 0x1C87 then some (0x462) else
  if n = 0x1C88 then some (0xA64A) else
  if n = 0x1D79 then some (0xA77D) else
  if n = 0x1D7D then some (0x2C63) else
  if n = 0x1D8E then some (0xA7C6) else
  if 0x1E01 ≤ n ∧ n ≤ 0x1E95 ∧ n % 2 = 1 then some (n - 1) else
  if n = 0x1E9B then some (0x1E60) else
  if 0x1EA1 ≤ n ∧ n ≤ 0x1EFF ∧ n % 2 = 1 then some (n - 1) else
  if 0x1F00 ≤ n ∧ n ≤ 0x1F07 then some (n + 8) else
  if 0x1F10 ≤ n ∧ n ≤ 0x1F15 then some (n + 8) else
  if 0x1F20 ≤ n ∧ n ≤ 0x1F27 then some (n + 8) else
  if 0x1F30 ≤ n ∧ n ≤ 0x1F37 then some (n + 8) else
  if 0x1F40 ≤ n ∧ n ≤ 0x1F45 then some (n + 8) else
  if 0x1F51 ≤ n ∧ n ≤ 0x1F57 ∧ n % 2 = 1 then some (n + 8) else
  if 0x1F60 ≤ n ∧ n ≤ 0x1F67 then some (n + 8) else
  if 0x1F70 ≤ n ∧ n ≤ 0x1F71 then some (n + 74) else
  if 0x1F72 ≤ n ∧ n ≤ 0x1F75 then some (n + 86) else
  if 0x1F76 ≤ n ∧ n ≤ 0x1F77 then some (n + 100) else
  if 0x1F78 ≤ n ∧ n ≤ 0x1F79 then some (n + 128) else
  if 0x1F7A ≤ n ∧ n ≤ 0x1F7B then some (n + 112) else
  if 0x1F7C ≤ n ∧ n ≤ 0x1F7D then some (n + 126) else
  if 0x1FB0 ≤ n ∧ n ≤ 0x1FB1 then some (n + 8) else
  if n = 0x1FBE then some (0x399) else
  if 0x1FD0 ≤ n ∧ n ≤ 0x1FD1 then some (n + 8) else
  if 0x1FE0 ≤ n ∧ n ≤ 0x1FE1 then some (n + 8) else
  if n = 0x1FE5 then some (0x1FEC) else
  if n = 0x214E then some (0x2132) else
  none

/-- Single-character uppercase mappings (UnicodeData.txt field 12),
code points 0x2170 to 0x1E943, compressed into arithmetic runs. -/
def uppercaseSimpleD (n : Nat) : Option Nat :=
  if 0x2170 ≤ n ∧ n ≤ 0x217F then some (n - 16) else
  if n = 0x2184 then some (0x2183) else
  if 0x24D0 ≤ n ∧ n ≤ 0x24E9 then some (n - 26) else
  if 0x2C30 ≤ n ∧ n ≤ 0x2C5F then some (n - 48) else
  if n = 0x2C61 then some (0x2C60) else
  if n = 0x2C65 then some (0x23A) else
  if n = 0x2C66 then some (0x23E) else
  if 0x2C68 ≤ n ∧ n ≤ 0x2C6C ∧ n % 2 = 0 then some (n - 1) else
  if n = 0x2C73 then some (0x2C72) else
  if n = 0x2C76 then some (0x2C75) else
  if 0x2C81 ≤ n ∧ n ≤ 0x2CE3 ∧ n % 2 = 1 then some (n - 1) else
  if 0x2CEC ≤ n ∧ n ≤ 0x2CEE ∧ n % 2 = 0 then some (n - 1) else
  if n = 0x2CF3 then some (0x2CF2) else
  if 0x2D00 ≤ n ∧ n ≤ 0x2D25 then some (n - 7264) else
  if n = 0x2D27 then some (0x10C7) else
  if n = 0x2D2D then some (0x10CD) else
  if 0xA641 ≤ n ∧ n ≤ 0xA66D ∧ n % 2 = 1 then some (n - 1) else
  if 0xA681 ≤ n ∧ n ≤ 0xA69B ∧ n % 2 = 1 then some (n - 1) else
  if 0xA723 ≤ n ∧ n ≤ 0xA72F ∧ n % 2 = 1 then some (n - 1) else
  if 0xA733 ≤ n ∧ n ≤ 0xA76F ∧ n % 2 = 1 then some (n - 1) else
  if 0xA77A ≤ n ∧ n ≤ 0xA77C ∧ n % 2 = 0 then some (n - 1) else
  if 0xA77F ≤ n ∧ n ≤ 0xA787 ∧ n % 2 = 1 then some (n - 1) else
  if n = 0xA78C then some (0xA78B) else
  if 0xA791 ≤ n ∧ n ≤ 0xA793 ∧ n % 2 = 1 then some (n - 1) else
  if n = 0xA794 then some (0xA7C4) else
  if 0xA797 ≤ n ∧ n ≤ 0xA7A9 ∧ n % 2 = 1 then some (n - 1) else
  if 0xA7B5 ≤ n ∧ n ≤ 0xA7C3 ∧ n % 2 = 1 then some (n - 1) else
  if 0xA7C8 ≤ n ∧ n ≤ 0xA7CA ∧ n % 2 = 0 then some (n - 1) else
  if n = 0xA7D1 then some (0xA7D0) else
  if 0xA7D7 ≤ n ∧ n ≤ 0xA7D9 ∧ n % 2 = 1 then some (n - 1) else
  if n = 0xA7F6 then some (0xA7F5) else
  if n = 0xAB53 then some (0xA7B3) else
  if 0xAB70 ≤ n ∧ n ≤ 0xABBF then some (n - 38864) else
  if 0xFF41 ≤ n ∧ n ≤ 0xFF5A then some (n - 32) else
  if 0x10428 ≤ n ∧ n ≤ 0x1044F then some (n - 40) else
  if 0x104D8 ≤ n ∧ n ≤ 0x104FB then some (n - 40) else
  if 0x10597 ≤ n ∧ n ≤ 0x105A1 then some (n - 39) else
  if 0x105A3 ≤ n ∧ n ≤ 0x105B1 then some (n - 39) else
  if 0x105B3 ≤ n ∧ n ≤ 0x105B9 then some (n - 39) else
  if 0x105BB ≤ n ∧ n ≤ 0x105BC then some (n - 39) else
  if 0x10CC0 ≤ n ∧ n ≤ 0x10CF2 then some (n - 64) else
  if 0x118C0 ≤ n ∧ n ≤ 0x118DF then some (n - 32) else
  if 0x16E60 ≤ n ∧ n ≤ 0x16E7F then some (n - 32) else
  if 0x1E922 ≤ n ∧ n ≤ 0x1E943 then some (n - 34) else
  none

/-- Single-character uppercase mappings, dispatched over the blocks above. -/
def uppercaseSimple (n : Nat) : Option Nat :=
  if n ≤ 0x252 then uppercaseSimpleA n else
  if n ≤ 0x3F0 then uppercaseSimpleB n else
  if n ≤ 0x214E then uppercaseSimpleC n else
  uppercaseSimpleD n

/-- The Unicode uppercase mapping behind Rust's `char::to_uppercase` (hence
`String::to_uppercase`): the unconditional SpecialCasing.txt expansions,
then the UnicodeData.txt simple mappings, identity elsewhere. -/
def uppercaseMapping (n : Nat) : List Nat :=
  match uppercaseSpecial n with
  | some t => t
  | none =>
    match uppercaseSimple n with
    | some m => [m]
    | none => [n]

/-- The UTF-8 byte sequence of `name.to_uppercase()`: the key the sibling
sort compares.  Rust's `String` ordering is byte-wise lexicographic, so the
lexicographic order on these byte lists is exactly
`name_a.to_uppercase().cmp(&name_b.to_uppercase())`. -/
def upperKey (s : String) : List Nat :=
  ((s.data.map (fun c => uppercaseMapping c.toNat)).flatten.map codeUtf8).flatten

/-- `cmp_file_system_nodes` from filetree.rs: directories order before
files; same-kind nodes compare by upper-cased name. -/
def cmp_file_system_nodes (a b : FileSystemNode) : Ordering :=
  match a, b with
  | .directory .., .file .. => .lt
  | .file .., .directory .. => .gt
  | .directory na _ _ _, .directory nb _ _ _ =>
      if upperKey na < upperKey nb then .lt
      else if upperKey na = upperKey nb then .eq else .gt
  | .file na _ _ _, .file nb _ _ _ =>
      if upperKey na < upperKey nb then .lt
      else if upperKey na = upperKey nb then .eq else .gt

/-- The non-strict order `sort_by(cmp_file_system_nodes)` sorts by. -/
def nodeLe (a b : FileSystemNode) : Prop := cmp_file_system_nodes a b ≠ .gt

instance : DecidableRel nodeLe := fun a b => by unfold nodeLe; infer_instance

theorem cmpName_ne_gt (na nb : String) :
    ((if upperKey na < upperKey nb then Ordering.lt
      else if upperKey na = upperKey nb then Ordering.eq else Ordering.gt) ≠ Ordering.gt) ↔
      upperKey na ≤ upperKey nb := by
  split
  · next h => simp [le_of_lt h]
  · split
    · next h => simp [le_of_eq h]
    · next h1 h2 =>
      have hlt : upperKey nb < upperKey na := lt_of_le_of_ne (not_lt.mp h1) (Ne.symm h2)
      simp [not_le.mpr hlt]

theorem nodeLe_iff (a b : FileSystemNode) :
    nodeLe a b ↔
      ((a.isDirNode = true ∧ b.isDirNode = false) ∨
        (a.isDirNode = b.isDirNode ∧ upperKey a.nodeName ≤ upperKey b.nodeName)) := by
  cases a <;> cases b <;>
    simp only [nodeLe, cmp_file_system_nodes, isDirNode, nodeName]
  · rw [cmpName_ne_gt]; simp
  · simp
  · simp
  · rw [cmpName_ne_gt]; simp

instance : IsTotal FileSystemNode nodeLe := by
  constructor
  intro a b
  rw [nodeLe_iff, nodeLe_iff]
  rcases le_total (FileSystemNode.upperKey a.nodeName) (FileSystemNode.upperKey b.nodeName) with h | h <;>
    cases ha : a.isDirNode <;> cases hb : b.isDirNode <;> simp [h]

instance : IsTrans FileSystemNode nodeLe := by
  constructor
  intro a b c hab hbc
  rw [nodeLe_iff] at hab hbc ⊢
  rcases hab with ⟨ha1, hb1⟩ | ⟨hab1, hab2⟩ <;> rcases hbc with ⟨hb2, hc1⟩ | ⟨hbc1, hbc2⟩
  · simp [hb1] at hb2
  · exact Or.inl ⟨ha1, by rw [← hbc1, hb1]⟩
  · exact Or.inl ⟨by rw [hab1, hb2], hc1⟩
  · exact Or.inr ⟨by rw [hab1, hbc1], le_trans hab2 hbc2⟩

theorem upperKey_eszett : upperKey "ß" = upperKey "SS" := by decide

theorem upperKey_cyrillic :
    upperKey "ѐ" < upperKey "я" ∧ upperKey "я" = [208, 175] ∧
      upperKey "ѐ" = [208, 128] := by
  decide

theorem cmp_cyrillic :
    cmp_file_system_nodes (.file "ѐ" ⟨none, none⟩ 0 false)
      (.file "я" ⟨none, none⟩ 0 false) = Ordering.lt := by
  decide

/-- Set the `is_last` flag of a node (the `*is_last = true` write). -/
def setIsLast : FileSystemNode → FileSystemNode
  | .directory n cs lv _ => .directory n cs lv true
  | .file n d lv _ => .file n d lv true

/-- `children.last_mut()` flag update: mark the final element of the
sorted sibling list as last. -/
def markLast : List FileSystemNode → List FileSystemNode
  | [] => []
  | [x] => [setIsLast x]
  | x :: y :: xs => x :: markLast (y :: xs)

theorem markLast_nil : markLast [] = [] := rfl

theorem markLast_append_singleton (l : List FileSystemNode) (x : FileSystemNode) :
    markLast (l ++ [x]) = l ++ [setIsLast x] := by
  induction l with
  | nil => rfl
  | cons a l ih =>
    cases l with
    | nil => rfl
    | cons b l' => simpa [markLast] using ih

theorem markLast_length (l : List FileSystemNode) : (markLast l).length = l.length := by
  induction l with
  | nil => rfl
  | cons a l ih =>
    cases l with
    | nil => rfl
    | cons b l' => simpa [markLast] using ih

theorem markLast_mem (l : List FileSystemNode) (x : FileSystemNode) (hx : x ∈ markLast l) :
    ∃ y ∈ l, x = y ∨ x = setIsLast y := by
  induction l with
  | nil => simp [markLast] at hx
  | cons a l ih =>
    cases l with
    | nil =>
      simp only [markLast, List.mem_singleton] at hx
      exact ⟨a, by simp, Or.inr hx⟩
    | cons b l' =>
      rw [markLast] at hx
      rcases List.mem_cons.mp hx with h | h
      · exact ⟨a, by simp, Or.inl h⟩
      · obtain ⟨y, hy, hxy⟩ := ih h
        exact ⟨y, by simp [hy], hxy⟩

end FileSystemNode

namespace RawFS

/-- Custom induction principle for the nested inductive. -/
theorem inductionOnRaw {P : RawFS → Prop}
    (hf : ∀ name data, P (.file name data))
    (hd : ∀ name readable entries, (∀ e ∈ entries, P e) → P (.dir name readable entries))
    (t : RawFS) : P t :=
  @RawFS.rec P (fun es => ∀ e ∈ es, P e)
    hf
    (fun name readable entries ih => hd name readable entries ih)
    (fun e h => absurd h (List.not_mem_nil e))
    (fun e es ihe ihes d hmem => by
      rcases List.mem_cons.mp hmem with h | h
      · exact h ▸ ihe
      · exact ihes d h)
    t

def isDirRaw : RawFS → Bool
  | .file .. => false
  | .dir .. => true

end RawFS

-- `build_file_system_tree` from filetree.rs: walk the snapshot, build
-- children (empty when `read_dir` fails), sort them with
-- `cmp_file_system_nodes`, and mark the final child as last sibling.
mutual
def build_file_system_tree : RawFS → Int → FileSystemNode
  | .file name data, lvl => .file name data lvl false
  | .dir name readable entries, lvl =>
      .directory name
        (FileSystemNode.markLast (List.insertionSort FileSystemNode.nodeLe
          (if readable then buildChildList entries (lvl + 1) else [])))
        lvl false

def buildChildList : List RawFS → Int → List FileSystemNode
  | [], _ => []
  | e :: es, lvl => build_file_system_tree e lvl :: buildChildList es lvl
end

theorem buildChildList_eq (es : List RawFS) (lvl : Int) :
    buildChildList es lvl = es.map (fun e => build_file_system_tree e lvl) := by
  induction es with
  | nil => rfl
  | cons e es ih => rw [buildChildList, ih, List.map_cons]

theorem build_file (name : String) (data : FileData) (lvl : Int) :
    build_file_system_tree (.file name data) lvl = .file name data lvl false := rfl

theorem build_dir (name : String) (readable : Bool) (entries : List RawFS) (lvl : Int) :
    build_file_system_tree (.dir name readable entries) lvl =
      .directory name
        (FileSystemNode.markLast (List.insertionSort FileSystemNode.nodeLe
          (if readable then entries.map (fun e => build_file_system_tree e (lvl + 1)) else [])))
        lvl false := by
  rw [build_file_system_tree, buildChildList_eq]

theorem build_dir_unreadable (name : String) (entries : List RawFS) (lvl : Int) :
    build_file_system_tree (.dir name false entries) lvl =
      .directory name [] lvl false := by
  rw [build_dir]
  rfl

/-! ## Catalog entries and header (mod.rs) -/

/-- `EntryType::Dir = 0x80000000`. -/
def EntryType.Dir : Nat := 2147483648

/-- `EntryType::LastFile = 0x40000000`. -/
def EntryType.LastFile : Nat := 1073741824

/-- `VDFSCatalogEntry` from mod.rs; `name` is the fixed 64-byte field,
`u32` fields are `Nat` values `< U32`, `parent_id` is the `i32`. -/
structure VDFSCatalogEntry where
  name_utf8 : String
  name : List Nat
  next_index : Nat
  size : Nat
  typ : Nat
  attributes : Nat
  parent_id : Int
  is_dir : Bool
deriving DecidableEq, Repr

/-- `VDFSCatalogEntry::default()`: 64 spaces as name, zeroes elsewhere. -/
def entryDefault : VDFSCatalogEntry :=
  { name_utf8 := "", name := List.replicate 64 32, next_index := 0, size := 0,
    typ := 0, attributes := 0, parent_id := 0, is_dir := false }

namespace VDFSCatalogEntry

/-- `VDFSCatalogEntry::new`: copies the ASCII-upper-cased name bytes over
the space-filled 64-byte field.  `none` models the panic of the slice copy
`name[..file_name.len()]` when the name exceeds 64 bytes. -/
def new (file_name : String) : Option VDFSCatalogEntry :=
  let bs := strBytes file_name
  if bs.length ≤ 64 then
    some { entryDefault with
      name := bs.map asciiUpper ++ List.replicate (64 - bs.length) 32,
      name_utf8 := file_name }
  else none

/-- `VDFSCatalogEntry::new_sized`: like `new` but also stores the `u64`
metadata length cast to `u32` (`size as u32`). -/
def new_sized (file_name : String) (size : Nat) : Option VDFSCatalogEntry :=
  (new file_name).map fun e => { e with size := size % U32 }

end VDFSCatalogEntry

/-- `VDFSHeader` from mod.rs (`comment` is the 256-byte field,
`signature` the 16-byte magic). -/
structure VDFSHeader where
  comment : List Nat
  signature : List Nat
  num_files : Nat
  num_entries : Nat
  timestamp : Nat
  size : Nat
  catalog_offset : Nat
  version : Nat
deriving DecidableEq, Repr

/-- `VDFSHeader::default()`; the wall-clock DOS timestamp is a parameter
of the model. -/
def VDFSHeader.default (timestamp : Nat) : VDFSHeader :=
  { comment := List.replicate 256 26,
    signature := [80, 83, 86, 68, 83, 67, 95, 86, 50, 46, 48, 48, 10, 13, 10, 13],
    num_files := 0, num_entries := 0, timestamp := timestamp, size := 0,
    catalog_offset := 0, version := 80 }

/-- `VDFSHeader::comment`: overwrite a prefix of the comment field; `none`
models the panic of `comment[..cmnt.len()]` when the comment exceeds
256 bytes. -/
def VDFSHeader.setComment (h : VDFSHeader) (cmnt : String) : Option VDFSHeader :=
  let bs := strBytes cmnt
  if bs.length ≤ 256 then some { h with comment := bs ++ h.comment.drop bs.length }
  else none

/-- The `Vdfs` aggregate from mod.rs. -/
structure Vdfs where
  header : VDFSHeader
  fs : FileSystemNode
  catalog_dirs : List VDFSCatalogEntry
  data : List Nat
  curr_pos : Nat

/-! ## build_catalog (mod.rs) -/

/-- Total node count of the pending queue of pass 1 (termination measure). -/
def qMeasure (q : List (Int × FileSystemNode)) : Nat :=
  (q.map (fun p => p.2.nodeCount)).sum

theorem qMeasure_nil : qMeasure [] = 0 := rfl

theorem qMeasure_cons (p : Int × FileSystemNode) (q : List (Int × FileSystemNode)) :
    qMeasure (p :: q) = p.2.nodeCount + qMeasure q := by
  simp [qMeasure]

theorem qMeasure_append (q1 q2 : List (Int × FileSystemNode)) :
    qMeasure (q1 ++ q2) = qMeasure q1 + qMeasure q2 := by
  simp [qMeasure]

theorem qMeasure_mapPair (i : Int) (cs : List FileSystemNode) :
    qMeasure (cs.map (fun c => (i, c))) = (cs.map FileSystemNode.nodeCount).sum := by
  simp only [qMeasure, List.map_map]
  rfl

/-- Total node count of a plain node queue (termination measure of pass 2). -/
def nMeasure (q : List FileSystemNode) : Nat := (q.map FileSystemNode.nodeCount).sum

theorem nMeasure_cons (n : FileSystemNode) (q : List FileSystemNode) :
    nMeasure (n :: q) = n.nodeCount + nMeasure q := by
  simp [nMeasure]

theorem nMeasure_append (q1 q2 : List FileSystemNode) :
    nMeasure (q1 ++ q2) = nMeasure q1 + nMeasure q2 := by
  simp [nMeasure]

theorem childrenOf_measure_lt (n : FileSystemNode) :
    nMeasure n.childrenOf < n.nodeCount := by
  cases n with
  | directory nm cs lv il =>
    rw [FileSystemNode.nodeCount_dir]
    simp [nMeasure, FileSystemNode.childrenOf]
  | file nm d lv il =>
    rw [FileSystemNode.nodeCount_file]
    simp [nMeasure, FileSystemNode.childrenOf]

/-- `Iterator::position`: index of the first element satisfying `p`. -/
def listPosition (p : α → Bool) : List α → Option Nat
  | [] => none
  | x :: xs => if p x then some 0 else (listPosition p xs).map (· + 1)

/-- `Vdfs::find_index`: position of the first catalog entry whose
`parent_id as u32` equals `level`, defaulting to 0. -/
def Vdfs.find_index (catalog : List VDFSCatalogEntry) (level : Nat) : Nat :=
  match listPosition (fun item => intToU32 item.parent_id == level) catalog with
  | some i => i
  | none => 0

/-- `i as usize` for an `i64`-widened `i32` index (only ever applied to
non-negative in-range values on the paths we verify). -/
def intToUsize (i : Int) : Nat := (i % (18446744073709551616 : Int)).toNat

/-- Fuel-indexed pass 1 loop; the wrapper `pass1` supplies the exact queue
measure as fuel, so the fuel-exhausted branch is never taken. -/
def pass1F (root : FileSystemNode) :
    Nat → List (Int × FileSystemNode) → Int → List VDFSCatalogEntry → List Nat →
      Except Nat (List VDFSCatalogEntry × List Nat)
  | _, [], _, catalog, data => .ok (catalog, data)
  | 0, _ :: _, _, catalog, data => .ok (catalog, data)
  | fuel + 1, (par, node) :: rest, index, catalog, data =>
    match node with
    | .directory name children lvl is_last =>
        if FileSystemNode.nodeBeq (.directory name children lvl is_last) root then
          pass1F root fuel (rest ++ children.map (fun c => (index, c))) (index + 1) catalog data
        else
          match VDFSCatalogEntry.new name with
          | none => .error 101
          | some e0 =>
              pass1F root fuel (rest ++ children.map (fun c => (index, c))) (index + 1)
                (catalog ++ [{ e0 with
                  is_dir := true,
                  typ := if is_last then (e0.typ ||| EntryType.Dir) ||| EntryType.LastFile
                         else e0.typ ||| EntryType.Dir,
                  parent_id := par }]) data
    | .file name d _lvl is_last =>
        match d.meta with
        | none => .error 420
        | some len =>
          match VDFSCatalogEntry.new_sized name len with
          | none => .error 101
          | some e0 =>
              match d.content with
              | none => .error 69
              | some bytes =>
                  pass1F root fuel rest (index + 1)
                    (catalog ++ [{ e0 with
                      is_dir := false,
                      parent_id := par,
                      typ := if is_last then EntryType.LastFile else e0.typ }])
                    (data ++ bytes)

/-- Pass 1 of `Vdfs::build_catalog`: BFS over the tree with a FIFO queue of
`(parent index, node)` pairs; emits one catalog entry per non-root node and
appends file contents to the data buffer.  Exit codes: `420` for a
`fs::metadata` failure, `69` for a `fs::read` failure, `101` for the
name-field panic. -/
def pass1 (root : FileSystemNode) (q : List (Int × FileSystemNode)) (index : Int)
    (catalog : List VDFSCatalogEntry) (data : List Nat) :
    Except Nat (List VDFSCatalogEntry × List Nat) :=
  pass1F root (qMeasure q) q index catalog data

/-- Fuel-indexed pass 2 loop; the wrapper `pass2` supplies the exact queue
measure as fuel. -/
def pass2F (root : FileSystemNode) :
    Nat → List FileSystemNode → Int → List VDFSCatalogEntry →
      Except Nat (List VDFSCatalogEntry)
  | _, [], _, catalog => .ok catalog
  | 0, _ :: _, _, catalog => .ok catalog
  | fuel + 1, node :: rest, i, catalog =>
    match node with
    | .directory name children lvl is_last =>
        if FileSystemNode.nodeBeq (.directory name children lvl is_last) root then
          pass2F root fuel (rest ++ children) (i + 1) catalog
        else
          if h : intToUsize i < catalog.length then
            pass2F root fuel (rest ++ children) (i + 1)
              (catalog.set (intToUsize i)
                { catalog[intToUsize i] with
                  next_index := Vdfs.find_index catalog (intToU32 i) })
          else .error 101
    | .file .. => pass2F root fuel rest (i + 1) catalog

/-- Pass 2 of `Vdfs::build_catalog`: the same BFS, resolving every non-root
directory entry's `next_index` via `find_index`.  The `.error 101` branch
models the panic of the out-of-bounds index `catalog_dirs[i as usize]`. -/
def pass2 (root : FileSystemNode) (q : List FileSystemNode) (i : Int)
    (catalog : List VDFSCatalogEntry) : Except Nat (List VDFSCatalogEntry) :=
  pass2F root (nMeasure q) q i catalog

theorem pass1_nil (root : FileSystemNode) (index : Int) (catalog : List VDFSCatalogEntry)
    (data : List Nat) : pass1 root [] index catalog data = .ok (catalog, data) := rfl

theorem pass1_cons_dir (root : FileSystemNode) (par : Int) (name : String)
    (children : List FileSystemNode) (lvl : Int) (is_last : Bool)
    (rest : List (Int × FileSystemNode)) (index : Int)
    (catalog : List VDFSCatalogEntry) (data : List Nat) :
    pass1 root ((par, .directory name children lvl is_last) :: rest) index catalog data =
      (if FileSystemNode.nodeBeq (.directory name children lvl is_last) root then
        pass1 root (rest ++ children.map (fun c => (index, c))) (index + 1) catalog data
      else
        match VDFSCatalogEntry.new name with
        | none => .error 101
        | some e0 =>
            pass1 root (rest ++ children.map (fun c => (index, c))) (index + 1)
              (catalog ++ [{ e0 with
                is_dir := true,
                typ := if is_last then (e0.typ ||| EntryType.Dir) ||| EntryType.LastFile
                       else e0.typ ||| EntryType.Dir,
                parent_id := par }]) data) := by
  unfold pass1
  rw [show qMeasure ((par, FileSystemNode.directory name children lvl is_last) :: rest) =
      qMeasure (rest ++ children.map (fun c => (index, c))) + 1 from by
    rw [qMeasure_cons, qMeasure_append, qMeasure_mapPair, FileSystemNode.nodeCount_dir]
    omega]
  rfl

theorem pass1_cons_file (root : FileSystemNode) (par : Int) (name : String) (d : FileData)
    (lvl : Int) (is_last : Bool) (rest : List (Int × FileSystemNode)) (index : Int)
    (catalog : List VDFSCatalogEntry) (data : List Nat) :
    pass1 root ((par, .file name d lvl is_last) :: rest) index catalog data =
      (match d.meta with
      | none => .error 420
      | some len =>
        match VDFSCatalogEntry.new_sized name len with
        | none => .error 101
        | some e0 =>
            match d.content with
            | none => .error 69
            | some bytes =>
                pass1 root rest (index + 1)
                  (catalog ++ [{ e0 with
                    is_dir := false,
                    parent_id := par,
                    typ := if is_last then EntryType.LastFile else e0.typ }])
                  (data ++ bytes)) := by
  unfold pass1
  rw [show qMeasure ((par, FileSystemNode.file name d lvl is_last) :: rest) =
      qMeasure rest + 1 from by
    rw [qMeasure_cons, FileSystemNode.nodeCount_file]
    omega]
  rfl

theorem pass2_nil (root : FileSystemNode) (i : Int) (catalog : List VDFSCatalogEntry) :
    pass2 root [] i catalog = .ok catalog := rfl

theorem pass2_cons_dir (root : FileSystemNode) (name : String)
    (children : List FileSystemNode) (lvl : Int) (is_last : Bool)
    (rest : List FileSystemNode) (i : Int) (catalog : List VDFSCatalogEntry) :
    pass2 root (.directory name children lvl is_last :: rest) i catalog =
      (if FileSystemNode.nodeBeq (.directory name children lvl is_last) root then
        pass2 root (rest ++ children) (i + 1) catalog
      else
        if h : intToUsize i < catalog.length then
          pass2 root (rest ++ children) (i + 1)
            (catalog.set (intToUsize i)
              { catalog[intToUsize i] with
                next_index := Vdfs.find_index catalog (intToU32 i) })
        else .error 101) := by
  unfold pass2
  rw [show nMeasure (FileSystemNode.directory name children lvl is_last :: rest) =
      nMeasure (rest ++ children) + 1 from by
    rw [nMeasure_cons, nMeasure_append, FileSystemNode.nodeCount_dir]
    simp only [nMeasure]
    omega]
  rfl

theorem pass2_cons_file (root : FileSystemNode) (name : String) (d : FileData)
    (lvl : Int) (is_last : Bool) (rest : List FileSystemNode) (i : Int)
    (catalog : List VDFSCatalogEntry) :
    pass2 root (.file name d lvl is_last :: rest) i catalog =
      pass2 root rest (i + 1) catalog := by
  unfold pass2
  rw [show nMeasure (FileSystemNode.file name d lvl is_last :: rest) =
      nMeasure rest + 1 from by
    rw [nMeasure_cons, FileSystemNode.nodeCount_file]
    omega]
  rfl

/-- The `iter_mut().filter(plain file).for_each(..)` offset pass: assigns
file offsets `catalog_offset + num_files * 80 + curr_pos` (all `u32`
wrapping arithmetic) and accumulates `curr_pos += size`. -/
def offsetPass (catalog_offset num_files : Nat) :
    List VDFSCatalogEntry → Nat → List VDFSCatalogEntry × Nat
  | [], pos => ([], pos)
  | e :: rest, pos =>
    if e.typ = 0 ∨ e.typ = EntryType.LastFile then
      let e' := { e with next_index := (catalog_offset + num_files * 80 + pos) % U32 }
      let r := offsetPass catalog_offset num_files rest ((pos + e.size) % U32)
      (e' :: r.1, r.2)
    else
      let r := offsetPass catalog_offset num_files rest pos
      (e :: r.1, r.2)

/-- `Vdfs::build_catalog`: the two BFS passes, then the header counters,
then the file-offset pass. -/
def Vdfs.build_catalog (v : Vdfs) : Except Nat Vdfs :=
  match pass1 v.fs [(-1, v.fs)] (-1) v.catalog_dirs v.data with
  | .error c => .error c
  | .ok (cat1, data1) =>
    match pass2 v.fs [v.fs] (-1) cat1 with
    | .error c => .error c
    | .ok cat2 =>
      let header1 := { v.header with
        catalog_offset := 296,
        num_files := cat2.length % U32,
        num_entries :=
          (cat2.filter (fun f => decide (f.typ = 0 ∨ f.typ = EntryType.LastFile))).length % U32 }
      let r := offsetPass header1.catalog_offset header1.num_files cat2 v.curr_pos
      .ok { v with header := header1, catalog_dirs := r.1, data := data1, curr_pos := r.2 }

/-- `u32` iterator sum (wrapping at each addition). -/
def u32sum (l : List Nat) : Nat := l.foldl (fun a b => (a + b) % U32) 0

/-- `Vdfs::calculate_data_size`: header `size` is the `u32` sum of all
catalog entry sizes. -/
def Vdfs.calculate_data_size (v : Vdfs) : Vdfs :=
  { v with header := { v.header with size := u32sum (v.catalog_dirs.map (·.size)) } }

/-- `Vdfs::from_dir`: build the tree at level −1, run `build_catalog`,
then `calculate_data_size`. -/
def Vdfs.from_dir (ts : Nat) (raw : RawFS) : Except Nat Vdfs :=
  (Vdfs.build_catalog
    { header := VDFSHeader.default ts, fs := build_file_system_tree raw (-1),
      catalog_dirs := [], data := [], curr_pos := 0 }).map Vdfs.calculate_data_size

/-- `Vdfs::add_comment`: write the comment (or `""`) into the header. -/
def Vdfs.add_comment (v : Vdfs) (cmnt : Option String) : Option Vdfs :=
  (v.header.setComment (cmnt.getD "")).map (fun h => { v with header := h })

def serializeHeader (h : VDFSHeader) : List Nat :=
  h.comment ++ h.signature ++ u32le h.num_files ++ u32le h.num_entries ++
    u32le h.timestamp ++ u32le h.size ++ u32le h.catalog_offset ++ u32le h.version

def serializeEntry (e : VDFSCatalogEntry) : List Nat :=
  e.name ++ u32le e.next_index ++ u32le e.size ++ u32le e.typ ++ u32le e.attributes

/-- `Vdfs::save_to_file`: the byte stream written to the output file. -/
def Vdfs.save_to_file (v : Vdfs) : List Nat :=
  serializeHeader v.header ++ (v.catalog_dirs.map serializeEntry).flatten ++ v.data

/-- The `main` path for a directory input: `Vdfs::from_dir(..)
.add_comment(..).save_to_file(..)`; the output bytes exist only on
success. -/
def mainFromDir (ts : Nat) (raw : RawFS) (comment : Option String) : Except Nat (List Nat) :=
  match Vdfs.from_dir ts raw with
  | .error c => .error c
  | .ok v =>
    match v.add_comment comment with
    | none => .error 101
    | some v2 => .ok v2.save_to_file

/-! ## Specification-side BFS enumeration -/

/-- Fuel-indexed BFS visit sequence with parent tags. -/
def bfsParF : Nat → List (Int × FileSystemNode) → Int → List (Int × FileSystemNode)
  | _, [], _ => []
  | 0, q, _ => q
  | fuel + 1, (par, n) :: rest, idx =>
      (par, n) :: bfsParF fuel (rest ++ n.childrenOf.map (fun c => (idx, c))) (idx + 1)

/-- BFS visit sequence with parent tags: pops `(parent, node)` pairs from a
FIFO queue, appending each node's children tagged with the node's visit
index. This is the visit order of both passes of `build_catalog`. -/
def bfsPar (q : List (Int × FileSystemNode)) (idx : Int) : List (Int × FileSystemNode) :=
  bfsParF (qMeasure q) q idx

/-- Fuel-indexed BFS visit sequence without parent tags. -/
def bfsNF : Nat → List FileSystemNode → List FileSystemNode
  | _, [] => []
  | 0, q => q
  | fuel + 1, n :: rest => n :: bfsNF fuel (rest ++ n.childrenOf)

/-- BFS visit sequence without parent tags. -/
def bfsN (q : List FileSystemNode) : List FileSystemNode :=
  bfsNF (nMeasure q) q

theorem bfsPar_nil (idx : Int) : bfsPar [] idx = [] := rfl

theorem bfsPar_cons (par : Int) (n : FileSystemNode) (rest : List (Int × FileSystemNode))
    (idx : Int) :
    bfsPar ((par, n) :: rest) idx =
      (par, n) :: bfsPar (rest ++ n.childrenOf.map (fun c => (idx, c))) (idx + 1) := by
  unfold bfsPar
  rw [show qMeasure ((par, n) :: rest) =
      qMeasure (rest ++ n.childrenOf.map (fun c => (idx, c))) + 1 from by
    rw [qMeasure_cons, qMeasure_append, qMeasure_mapPair]
    have := childrenOf_measure_lt n
    have := FileSystemNode.nodeCount_children_succ n
    simp only [nMeasure] at this ⊢
    omega]
  rfl

theorem bfsN_nil : bfsN [] = [] := rfl

theorem bfsN_cons (n : FileSystemNode) (rest : List FileSystemNode) :
    bfsN (n :: rest) = n :: bfsN (rest ++ n.childrenOf) := by
  unfold bfsN
  rw [show nMeasure (n :: rest) = nMeasure (rest ++ n.childrenOf) + 1 from by
    rw [nMeasure_cons, nMeasure_append]
    have := FileSystemNode.nodeCount_children_succ n
    simp only [nMeasure] at this ⊢
    omega]
  rfl

/-- Map a partial function over a list, failing if any element fails. -/
def optMap (f : α → Option β) : List α → Option (List β)
  | [] => some []
  | x :: xs =>
    match f x, optMap f xs with
    | some y, some ys => some (y :: ys)
    | _, _ => none

/-- The catalog entry pass 1 produces for a visited non-root node with
parent tag `par` (`none` when entry construction would abort). -/
def entryOfNode (par : Int) : FileSystemNode → Option VDFSCatalogEntry
  | .directory name _ _ is_last =>
      (VDFSCatalogEntry.new name).map fun e0 =>
        { e0 with
          is_dir := true,
          typ := if is_last then (e0.typ ||| EntryType.Dir) ||| EntryType.LastFile
                 else e0.typ ||| EntryType.Dir,
          parent_id := par }
  | .file _name d _ is_last =>
      match d.meta with
      | none => none
      | some len =>
        (VDFSCatalogEntry.new_sized _name len).map fun e0 =>
          { e0 with
            is_dir := false,
            parent_id := par,
            typ := if is_last then EntryType.LastFile else e0.typ }

/-- The bytes pass 1 appends to the data buffer for a visited node
(`none` when `fs::read` fails). -/
def contentOf : FileSystemNode → Option (List Nat)
  | .directory .. => some []
  | .file _ d _ _ => d.content

instance : DecidableEq FileSystemNode :=
  fun a b => decidable_of_iff _ (FileSystemNode.nodeBeq_iff a b)

/-! ## Generic lemmas about `optMap` and `listPosition` -/

theorem optMap_nil (f : α → Option β) : optMap f [] = some [] := rfl

theorem optMap_cons_some {f : α → Option β} {x : α} {xs : List α} {l : List β}
    (h : optMap f (x :: xs) = some l) :
    ∃ y ys, f x = some y ∧ optMap f xs = some ys ∧ l = y :: ys := by
  rw [optMap] at h
  cases hx : f x with
  | none => rw [hx] at h; cases h
  | some y =>
    cases hxs : optMap f xs with
    | none => rw [hx, hxs] at h; cases h
    | some ys =>
      rw [hx, hxs] at h
      exact ⟨y, ys, rfl, rfl, by cases h; rfl⟩

theorem optMap_cons_mk {f : α → Option β} {x : α} {xs : List α} {y : β} {ys : List β}
    (hx : f x = some y) (hxs : optMap f xs = some ys) :
    optMap f (x :: xs) = some (y :: ys) := by
  rw [optMap, hx, hxs]

theorem optMap_length {f : α → Option β} : ∀ {l : List α} {l' : List β},
    optMap f l = some l' → l'.length = l.length := by
  intro l
  induction l with
  | nil => intro l' h; rw [optMap_nil] at h; cases h; rfl
  | cons x xs ih =>
    intro l' h
    obtain ⟨y, ys, _, hxs, rfl⟩ := optMap_cons_some h
    simp [ih hxs]

theorem optMap_get {f : α → Option β} : ∀ {l : List α} {l' : List β},
    optMap f l = some l' → ∀ k (h1 : k < l.length) (h2 : k < l'.length),
      f (l.get ⟨k, h1⟩) = some (l'.get ⟨k, h2⟩) := by
  intro l
  induction l with
  | nil => intro l' h k h1; exact absurd h1 (by simp)
  | cons x xs ih =>
    intro l' h k h1 h2
    obtain ⟨y, ys, hx, hxs, rfl⟩ := optMap_cons_some h
    cases k with
    | zero => simpa using hx
    | succ k => simpa using ih hxs k (by simpa using h1) (by simpa using h2)

theorem optMap_mem_some {f : α → Option β} : ∀ {l : List α} {l' : List β},
    optMap f l = some l' → ∀ x ∈ l, ∃ y, f x = some y := by
  intro l
  induction l with
  | nil => intro l' _ x hx; exact absurd hx (by simp)
  | cons a as ih =>
    intro l' h x hx
    obtain ⟨y, ys, ha, has, rfl⟩ := optMap_cons_some h
    rcases List.mem_cons.mp hx with rfl | hx
    · exact ⟨y, ha⟩
    · exact ih has x hx

theorem listPosition_nil (p : α → Bool) : listPosition p [] = none := rfl

theorem listPosition_none_iff (p : α → Bool) : ∀ (l : List α),
    listPosition p l = none ↔ l.filter p = [] := by
  intro l
  induction l with
  | nil => simp [listPosition]
  | cons x xs ih =>
    rw [listPosition]
    cases hx : p x with
    | true => simp [hx, List.filter_cons, Option.map_eq_none]
    | false => simp [hx, List.filter_cons, Option.map_eq_none, ← ih]

theorem listPosition_of_filter_cons (p : α → Bool) : ∀ (l : List α) (x : α) (xs : List α),
    l.filter p = x :: xs → ∃ j, listPosition p l = some j ∧ l[j]? = some x := by
  intro l
  induction l with
  | nil => intro x xs h; simp at h
  | cons a as ih =>
    intro x xs h
    rw [List.filter_cons] at h
    by_cases hp : p a
    · simp only [hp, if_true] at h
      cases h
      exact ⟨0, by rw [listPosition]; simp [hp], by simp⟩
    · simp only [hp, if_neg, Bool.false_eq_true, if_false] at h
      obtain ⟨j, hj, hget⟩ := ih x xs h
      refine ⟨j + 1, ?_, by simpa using hget⟩
      rw [listPosition]
      simp [hp, hj]

theorem listPosition_congr {p₁ : α → Bool} {p₂ : β → Bool} :
    ∀ {l₁ : List α} {l₂ : List β}, l₁.length = l₂.length →
    (∀ k (h1 : k < l₁.length) (h2 : k < l₂.length),
        p₁ (l₁.get ⟨k, h1⟩) = p₂ (l₂.get ⟨k, h2⟩)) →
    listPosition p₁ l₁ = listPosition p₂ l₂ := by
  intro l₁
  induction l₁ with
  | nil =>
    intro l₂ hlen _
    cases l₂ with
    | nil => rfl
    | cons b bs => simp at hlen
  | cons a as ih =>
    intro l₂ hlen hpt
    cases l₂ with
    | nil => simp at hlen
    | cons b bs =>
      have h0 := hpt 0 (by simp) (by simp)
      simp only [List.get] at h0
      rw [listPosition, listPosition, h0]
      by_cases hb : p₂ b
      · simp [hb]
      · simp only [hb, if_neg, Bool.false_eq_true, if_false]
        rw [ih (by simpa using hlen)
          (fun k h1 h2 => by simpa using hpt (k + 1) (by simpa using h1) (by simpa using h2))]

/-! ## Structure of the BFS visit sequence -/

theorem qMeasure_cons_mk (par : Int) (n : FileSystemNode) (q : List (Int × FileSystemNode)) :
    qMeasure ((par, n) :: q) = n.nodeCount + qMeasure q :=
  qMeasure_cons (par, n) q

theorem qMeasure_step (par idx : Int) (n : FileSystemNode) (rest : List (Int × FileSystemNode)) :
    qMeasure (rest ++ n.childrenOf.map (fun c => (idx, c))) + 1 = qMeasure ((par, n) :: rest) := by
  rw [qMeasure_cons_mk, qMeasure_append, qMeasure_mapPair]
  have := FileSystemNode.nodeCount_children_succ n
  omega

theorem nMeasure_step (n : FileSystemNode) (rest : List FileSystemNode) :
    nMeasure (rest ++ n.childrenOf) + 1 = nMeasure (n :: rest) := by
  rw [nMeasure_cons, nMeasure_append]
  have := FileSystemNode.nodeCount_children_succ n
  simp only [nMeasure] at *
  omega

theorem qMeasure_map_snd (q : List (Int × FileSystemNode)) :
    nMeasure (q.map Prod.snd) = qMeasure q := by
  simp only [nMeasure, qMeasure, List.map_map]
  rfl

theorem bfsPar_map_snd_aux : ∀ (N : Nat) (q : List (Int × FileSystemNode)) (idx : Int),
    qMeasure q ≤ N → (bfsPar q idx).map Prod.snd = bfsN (q.map Prod.snd) := by
  intro N
  induction N with
  | zero =>
    intro q idx hq
    cases q with
    | nil => rfl
    | cons p rest =>
      exfalso
      rw [qMeasure_cons] at hq
      have := FileSystemNode.nodeCount_pos p.2
      omega
  | succ N ih =>
    intro q idx hq
    cases q with
    | nil => rfl
    | cons p rest =>
      obtain ⟨par, n⟩ := p
      rw [bfsPar_cons]
      simp only [List.map_cons]
      rw [bfsN_cons]
      have hm : qMeasure (rest ++ n.childrenOf.map (fun c => (idx, c))) ≤ N := by
        have := qMeasure_step par idx n rest
        omega
      rw [ih _ (idx + 1) hm]
      congr 1
      simp [List.map_append, List.map_map]

theorem bfsPar_map_snd (q : List (Int × FileSystemNode)) (idx : Int) :
    (bfsPar q idx).map Prod.snd = bfsN (q.map Prod.snd) :=
  bfsPar_map_snd_aux (qMeasure q) q idx le_rfl

theorem bfsPar_tags_aux : ∀ (N : Nat) (q : List (Int × FileSystemNode)) (idx : Int),
    qMeasure q ≤ N → ∀ p ∈ bfsPar q idx,
      (p.1 ∈ q.map Prod.fst ∨ (idx ≤ p.1 ∧ p.1 < idx + (bfsPar q idx).length)) := by
  intro N
  induction N with
  | zero =>
    intro q idx hq p hp
    cases q with
    | nil => rw [bfsPar_nil] at hp; exact absurd hp (by simp)
    | cons p0 rest =>
      exfalso
      rw [qMeasure_cons] at hq
      have := FileSystemNode.nodeCount_pos p0.2
      omega
  | succ N ih =>
    intro q idx hq p hp
    cases q with
    | nil => rw [bfsPar_nil] at hp; exact absurd hp (by simp)
    | cons p0 rest =>
      obtain ⟨par, n⟩ := p0
      rw [bfsPar_cons] at hp ⊢
      have hm : qMeasure (rest ++ n.childrenOf.map (fun c => (idx, c))) ≤ N := by
        have := qMeasure_step par idx n rest
        omega
      rcases List.mem_cons.mp hp with rfl | hp
      · left; simp
      · rcases ih _ (idx + 1) hm p hp with h | ⟨h1, h2⟩
        · simp only [List.map_append, List.map_map, List.mem_append] at h
          rcases h with h | h
          · left; simpa using Or.inr (by simpa using h)
          · right
            have : p.1 = idx := by
              simp only [List.mem_map] at h
              obtain ⟨c, _, hc⟩ := h
              simp [← hc]
            constructor
            · omega
            · simp only [List.length_cons]
              have := (bfsPar (rest ++ n.childrenOf.map (fun c => (idx, c))) (idx + 1)).length
              omega
        · right
          constructor
          · omega
          · simp only [List.length_cons]
            omega

theorem bfsPar_tags (q : List (Int × FileSystemNode)) (idx : Int) :
    ∀ p ∈ bfsPar q idx,
      (p.1 ∈ q.map Prod.fst ∨ (idx ≤ p.1 ∧ p.1 < idx + (bfsPar q idx).length)) :=
  bfsPar_tags_aux (qMeasure q) q idx le_rfl

theorem bfsPar_filter_old_aux : ∀ (N : Nat) (q : List (Int × FileSystemNode)) (idx : Int),
    qMeasure q ≤ N → (∀ p ∈ q, p.1 < idx) → ∀ i : Int, i < idx →
      (bfsPar q idx).filter (fun p => p.1 == i) = q.filter (fun p => p.1 == i) := by
  intro N
  induction N with
  | zero =>
    intro q idx hq _ i _
    cases q with
    | nil => rfl
    | cons p rest =>
      exfalso
      rw [qMeasure_cons] at hq
      have := FileSystemNode.nodeCount_pos p.2
      omega
  | succ N ih =>
    intro q idx hq htags i hi
    cases q with
    | nil => rfl
    | cons p rest =>
      obtain ⟨par, n⟩ := p
      rw [bfsPar_cons]
      have hm : qMeasure (rest ++ n.childrenOf.map (fun c => (idx, c))) ≤ N := by
        have := qMeasure_step par idx n rest
        omega
      have htags' : ∀ p ∈ rest ++ n.childrenOf.map (fun c => (idx, c)), p.1 < idx + 1 := by
        intro p hp
        rcases List.mem_append.mp hp with hp | hp
        · have := htags p (by simp [hp])
          omega
        · simp only [List.mem_map] at hp
          obtain ⟨c, _, rfl⟩ := hp
          omega
      rw [List.filter_cons, List.filter_cons,
        ih _ (idx + 1) hm htags' i (by omega), List.filter_append]
      have hblock : (n.childrenOf.map (fun c => (idx, c))).filter (fun p => p.1 == i) = [] := by
        rw [List.filter_eq_nil_iff]
        intro p hp
        simp only [List.mem_map] at hp
        obtain ⟨c, _, rfl⟩ := hp
        simp only [beq_iff_eq]
        omega
      rw [hblock, List.append_nil]

theorem bfsPar_filter_children_aux : ∀ (N : Nat) (q : List (Int × FileSystemNode)) (idx : Int),
    qMeasure q ≤ N → (∀ p ∈ q, p.1 < idx) → ∀ i : Int, idx ≤ i →
      (bfsPar q idx).filter (fun p => p.1 == i) =
        (match (bfsPar q idx)[(i - idx).toNat]? with
         | some p => p.2.childrenOf.map (fun c => (i, c))
         | none => []) := by
  intro N
  induction N with
  | zero =>
    intro q idx hq _ i _
    cases q with
    | nil => rw [bfsPar_nil]; rfl
    | cons p rest =>
      exfalso
      rw [qMeasure_cons] at hq
      have := FileSystemNode.nodeCount_pos p.2
      omega
  | succ N ih =>
    intro q idx hq htags i hi
    cases q with
    | nil => rw [bfsPar_nil]; rfl
    | cons p rest =>
      obtain ⟨par, n⟩ := p
      rw [bfsPar_cons]
      have hm : qMeasure (rest ++ n.childrenOf.map (fun c => (idx, c))) ≤ N := by
        have := qMeasure_step par idx n rest
        omega
      have htags' : ∀ p ∈ rest ++ n.childrenOf.map (fun c => (idx, c)), p.1 < idx + 1 := by
        intro p hp
        rcases List.mem_append.mp hp with hp | hp
        · have := htags p (by simp [hp])
          omega
        · simp only [List.mem_map] at hp
          obtain ⟨c, _, rfl⟩ := hp
          omega
      have hhead : ((par, n).1 == i) = false := by
        have := htags (par, n) (by simp)
        simp only [beq_eq_false_iff_ne, ne_eq]
        omega
      rw [List.filter_cons]
      simp only [hhead, Bool.false_eq_true, if_false]
      rcases eq_or_lt_of_le hi with rfl | hgt
      · -- i = idx: the filtered elements are exactly the children block
        rw [bfsPar_filter_old_aux N _ (idx + 1) hm htags' idx (by omega), List.filter_append]
        have hrest : rest.filter (fun p => p.1 == idx) = [] := by
          rw [List.filter_eq_nil_iff]
          intro p hp
          have := htags p (by simp [hp])
          simp only [beq_iff_eq]
          omega
        have hblock : (n.childrenOf.map (fun c => (idx, c))).filter (fun p => p.1 == idx) =
            n.childrenOf.map (fun c => (idx, c)) := by
          rw [List.filter_eq_self]
          intro p hp
          simp only [List.mem_map] at hp
          obtain ⟨c, _, rfl⟩ := hp
          simp
        rw [hrest, hblock, List.nil_append]
        simp
      · -- i > idx: recurse into the tail
        rw [ih _ (idx + 1) hm htags' i (by omega)]
        have harith : (i - idx).toNat = (i - (idx + 1)).toNat + 1 := by omega
        rw [harith]
        simp

/-! ## Shape of produced catalog entries -/

theorem new_some_iff (name : String) :
    (∃ e, VDFSCatalogEntry.new name = some e) ↔ (strBytes name).length ≤ 64 := by
  rw [VDFSCatalogEntry.new]
  split
  · next h => exact ⟨fun _ => h, fun _ => ⟨_, rfl⟩⟩
  · next h => simp [h]

theorem new_fields {name : String} {e : VDFSCatalogEntry}
    (h : VDFSCatalogEntry.new name = some e) :
    e = { entryDefault with
      name := (strBytes name).map asciiUpper ++
        List.replicate (64 - (strBytes name).length) 32,
      name_utf8 := name } ∧ (strBytes name).length ≤ 64 := by
  rw [VDFSCatalogEntry.new] at h
  split at h
  · next hle => cases h; exact ⟨rfl, hle⟩
  · cases h

theorem new_sized_fields {name : String} {sz : Nat} {e : VDFSCatalogEntry}
    (h : VDFSCatalogEntry.new_sized name sz = some e) :
    ∃ e0, VDFSCatalogEntry.new name = some e0 ∧ e = { e0 with size := sz % U32 } := by
  rw [VDFSCatalogEntry.new_sized] at h
  cases hn : VDFSCatalogEntry.new name with
  | none => rw [hn] at h; cases h
  | some e0 =>
    rw [hn] at h
    cases h
    exact ⟨e0, rfl, rfl⟩

theorem entryOfNode_spec {par : Int} {n : FileSystemNode} {e : VDFSCatalogEntry}
    (h : entryOfNode par n = some e) :
    e.parent_id = par ∧ e.is_dir = n.isDirNode ∧ e.name_utf8 = n.nodeName ∧
    e.attributes = 0 ∧ e.size < U32 ∧
    e.typ = (if n.isDirNode = true then
               (if n.nodeIsLast = true then EntryType.Dir ||| EntryType.LastFile
                else EntryType.Dir)
             else (if n.nodeIsLast = true then EntryType.LastFile else 0)) ∧
    (n.isDirNode = true → e.size = 0) ∧
    (n.isDirNode = false →
      ∃ d len, n.fileDataOf = some d ∧ d.meta = some len ∧ e.size = len % U32) := by
  cases n with
  | directory nm cs lv il =>
    rw [entryOfNode] at h
    cases hn : VDFSCatalogEntry.new nm with
    | none => rw [hn] at h; cases h
    | some e0 =>
      rw [hn] at h
      cases h
      obtain ⟨he0, -⟩ := new_fields hn
      subst he0
      refine ⟨rfl, rfl, rfl, rfl, by simp [entryDefault, U32], ?_, fun _ => rfl, by simp [FileSystemNode.isDirNode]⟩
      simp only [FileSystemNode.isDirNode, FileSystemNode.nodeIsLast, entryDefault, if_true]
      cases il <;> simp [EntryType.Dir, EntryType.LastFile]
  | file nm d lv il =>
    cases hm : d.meta with
    | none => simp only [entryOfNode, hm] at h; cases h
    | some len =>
      simp only [entryOfNode, hm] at h
      cases hn : VDFSCatalogEntry.new_sized nm len with
      | none => rw [hn] at h; cases h
      | some e0 =>
        rw [hn, Option.map_some'] at h
        cases h
        obtain ⟨e1, he1, rfl⟩ := new_sized_fields hn
        obtain ⟨he1f, -⟩ := new_fields he1
        subst he1f
        refine ⟨rfl, rfl, rfl, rfl, by simp [U32, Nat.mod_lt], ?_, by simp [FileSystemNode.isDirNode], ?_⟩
        · simp only [FileSystemNode.isDirNode, FileSystemNode.nodeIsLast, entryDefault]
          cases il <;> simp
        · intro _
          exact ⟨d, len, rfl, hm, rfl⟩

/-! ## Characterization of pass 1 -/

theorem occursIn_false_dir {root : FileSystemNode} {nm : String}
    {cs : List FileSystemNode} {lv : Int} {il : Bool}
    (h : FileSystemNode.occursIn root (.directory nm cs lv il) = false) :
    FileSystemNode.nodeBeq (.directory nm cs lv il) root = false ∧
      ∀ c ∈ cs, FileSystemNode.occursIn root c = false := by
  rw [FileSystemNode.occursIn_dir] at h
  simp only [Bool.or_eq_false_iff, List.any_eq_false] at h
  exact ⟨h.1, fun c hc => by have := h.2 c hc; simpa using this⟩

theorem pass1_ok_char_aux :
    ∀ (N : Nat) (root : FileSystemNode) (q : List (Int × FileSystemNode)) (idx : Int)
      (catalog : List VDFSCatalogEntry) (data : List Nat)
      (out : List VDFSCatalogEntry × List Nat),
    qMeasure q ≤ N →
    pass1 root q idx catalog data = .ok out →
    (∀ p ∈ q, FileSystemNode.occursIn root p.2 = false) →
    ∃ ents chunks,
      optMap (fun p : Int × FileSystemNode => entryOfNode p.1 p.2) (bfsPar q idx) = some ents ∧
      optMap (fun p : Int × FileSystemNode => contentOf p.2) (bfsPar q idx) = some chunks ∧
      out.1 = catalog ++ ents ∧ out.2 = data ++ chunks.flatten := by
  intro N
  induction N with
  | zero =>
    intro root q idx catalog data out hq hok _
    cases q with
    | nil =>
      rw [pass1_nil] at hok
      cases hok
      exact ⟨[], [], rfl, rfl, by simp, by simp⟩
    | cons p rest =>
      exfalso
      rw [qMeasure_cons] at hq
      have := FileSystemNode.nodeCount_pos p.2
      omega
  | succ N ih =>
    intro root q idx catalog data out hq hok hfree
    cases q with
    | nil =>
      rw [pass1_nil] at hok
      cases hok
      exact ⟨[], [], rfl, rfl, by simp, by simp⟩
    | cons p rest =>
      obtain ⟨par, n⟩ := p
      cases n with
      | directory nm cs lv il =>
        obtain ⟨hbeq, hcs⟩ := occursIn_false_dir
          (hfree (par, .directory nm cs lv il) (by simp))
        rw [pass1_cons_dir, hbeq] at hok
        simp only [Bool.false_eq_true, if_false] at hok
        cases hnew : VDFSCatalogEntry.new nm with
        | none => rw [hnew] at hok; cases hok
        | some e0 =>
          rw [hnew] at hok
          have hm : qMeasure (rest ++ cs.map (fun c => (idx, c))) ≤ N := by
            have := qMeasure_step par idx (.directory nm cs lv il) rest
            simp only [FileSystemNode.childrenOf] at this
            omega
          have hfree' : ∀ p ∈ rest ++ cs.map (fun c => (idx, c)),
              FileSystemNode.occursIn root p.2 = false := by
            intro p hp
            rcases List.mem_append.mp hp with hp | hp
            · exact hfree p (by simp [hp])
            · simp only [List.mem_map] at hp
              obtain ⟨c, hc, rfl⟩ := hp
              exact hcs c hc
          obtain ⟨ents, chunks, hents, hchunks, hout1, hout2⟩ :=
            ih root _ (idx + 1) _ _ out hm hok hfree'
          rw [bfsPar_cons]
          simp only [FileSystemNode.childrenOf]
          refine ⟨({ e0 with
              is_dir := true,
              typ := if il = true then (e0.typ ||| EntryType.Dir) ||| EntryType.LastFile
                     else e0.typ ||| EntryType.Dir,
              parent_id := par }) :: ents, [] :: chunks, ?_, ?_, ?_, ?_⟩
          · exact optMap_cons_mk (by rw [entryOfNode, hnew, Option.map_some']) hents
          · exact optMap_cons_mk (by rw [contentOf]) hchunks
          · rw [hout1]; simp
          · rw [hout2]; simp
      | file nm d lv il =>
        rw [pass1_cons_file] at hok
        cases hmeta : d.meta with
        | none => rw [hmeta] at hok; cases hok
        | some len =>
          rw [hmeta] at hok
          simp only [] at hok
          cases hnew : VDFSCatalogEntry.new_sized nm len with
          | none => rw [hnew] at hok; cases hok
          | some e0 =>
            rw [hnew] at hok
            cases hcont : d.content with
            | none => rw [hcont] at hok; cases hok
            | some bytes =>
              rw [hcont] at hok
              have hm : qMeasure rest ≤ N := by
                rw [qMeasure_cons_mk, FileSystemNode.nodeCount_file] at hq
                omega
              have hfree' : ∀ p ∈ rest, FileSystemNode.occursIn root p.2 = false :=
                fun p hp => hfree p (by simp [hp])
              obtain ⟨ents, chunks, hents, hchunks, hout1, hout2⟩ :=
                ih root rest (idx + 1) _ _ out hm hok hfree'
              rw [bfsPar_cons]
              simp only [FileSystemNode.childrenOf, List.map_nil, List.append_nil]
              refine ⟨({ e0 with
                  is_dir := false,
                  parent_id := par,
                  typ := if il = true then EntryType.LastFile else e0.typ }) :: ents,
                bytes :: chunks, ?_, ?_, ?_, ?_⟩
              · refine optMap_cons_mk ?_ hents
                simp only [entryOfNode, hmeta, hnew, Option.map_some']
              · exact optMap_cons_mk (by rw [contentOf, hcont]) hchunks
              · rw [hout1]; simp
              · rw [hout2]; simp

theorem pass1_ok_char {root : FileSystemNode} {q : List (Int × FileSystemNode)} {idx : Int}
    {catalog : List VDFSCatalogEntry} {data : List Nat}
    {out : List VDFSCatalogEntry × List Nat}
    (hok : pass1 root q idx catalog data = .ok out)
    (hfree : ∀ p ∈ q, FileSystemNode.occursIn root p.2 = false) :
    ∃ ents chunks,
      optMap (fun p : Int × FileSystemNode => entryOfNode p.1 p.2) (bfsPar q idx) = some ents ∧
      optMap (fun p : Int × FileSystemNode => contentOf p.2) (bfsPar q idx) = some chunks ∧
      out.1 = catalog ++ ents ∧ out.2 = data ++ chunks.flatten :=
  pass1_ok_char_aux (qMeasure q) root q idx catalog data out le_rfl hok hfree

/-! ## Characterization of pass 2 -/

theorem bfsN_length_aux : ∀ (N : Nat) (q : List FileSystemNode),
    nMeasure q ≤ N → (bfsN q).length = nMeasure q := by
  intro N
  induction N with
  | zero =>
    intro q hq
    cases q with
    | nil => rfl
    | cons n rest =>
      exfalso
      rw [nMeasure_cons] at hq
      have := FileSystemNode.nodeCount_pos n
      omega
  | succ N ih =>
    intro q hq
    cases q with
    | nil => rfl
    | cons n rest =>
      rw [bfsN_cons, List.length_cons, ih (rest ++ n.childrenOf) (by
        have := nMeasure_step n rest
        omega)]
      have := nMeasure_step n rest
      omega

theorem bfsN_length (q : List FileSystemNode) : (bfsN q).length = nMeasure q :=
  bfsN_length_aux (nMeasure q) q le_rfl

theorem bfsPar_length_aux : ∀ (N : Nat) (q : List (Int × FileSystemNode)) (idx : Int),
    qMeasure q ≤ N → (bfsPar q idx).length = qMeasure q := by
  intro N
  induction N with
  | zero =>
    intro q idx hq
    cases q with
    | nil => rfl
    | cons p rest =>
      exfalso
      rw [qMeasure_cons] at hq
      have := FileSystemNode.nodeCount_pos p.2
      omega
  | succ N ih =>
    intro q idx hq
    cases q with
    | nil => rfl
    | cons p rest =>
      obtain ⟨par, n⟩ := p
      rw [bfsPar_cons, List.length_cons, ih _ (idx + 1) (by
        have := qMeasure_step par idx n rest
        omega)]
      have := qMeasure_step par idx n rest
      omega

theorem bfsPar_length (q : List (Int × FileSystemNode)) (idx : Int) :
    (bfsPar q idx).length = qMeasure q :=
  bfsPar_length_aux (qMeasure q) q idx le_rfl

theorem intToUsize_eq_toNat {i : Int} (h0 : 0 ≤ i) (h1 : i < 18446744073709551616) :
    intToUsize i = i.toNat := by
  unfold intToUsize
  omega

/-- Whether the BFS sequence has a directory node at offset `m`. -/
def dirAt (s : List FileSystemNode) (m : Nat) : Bool :=
  match s[m]? with
  | some n => n.isDirNode
  | none => false

theorem dirAt_nil (m : Nat) : dirAt [] m = false := by
  simp [dirAt]

theorem dirAt_cons_zero (n : FileSystemNode) (s : List FileSystemNode) :
    dirAt (n :: s) 0 = n.isDirNode := by
  simp [dirAt]

theorem dirAt_cons_succ (n : FileSystemNode) (s : List FileSystemNode) (m : Nat) :
    dirAt (n :: s) (m + 1) = dirAt s m := by
  simp [dirAt]

theorem find_index_congr {l1 l2 : List VDFSCatalogEntry} (hlen : l1.length = l2.length)
    (hpar : ∀ k (h1 : k < l1.length) (h2 : k < l2.length),
      (l1.get ⟨k, h1⟩).parent_id = (l2.get ⟨k, h2⟩).parent_id) (level : Nat) :
    Vdfs.find_index l1 level = Vdfs.find_index l2 level := by
  unfold Vdfs.find_index
  have heq : listPosition (fun item : VDFSCatalogEntry => intToU32 item.parent_id == level) l1
      = listPosition (fun item : VDFSCatalogEntry => intToU32 item.parent_id == level) l2 :=
    listPosition_congr hlen (fun k h1 h2 => by simp only [hpar k h1 h2])
  rw [heq]


theorem pass2_ok_char_aux :
    ∀ (N : Nat) (root : FileSystemNode) (q : List FileSystemNode) (i : Int)
      (catalog out : List VDFSCatalogEntry),
    nMeasure q ≤ N →
    pass2 root q i catalog = .ok out →
    (∀ n ∈ q, FileSystemNode.occursIn root n = false) →
    0 ≤ i →
    i + (nMeasure q : Int) < 18446744073709551616 →
    out.length = catalog.length ∧
    ∀ k (hk : k < catalog.length) (hk2 : k < out.length),
      out[k] =
        if i.toNat ≤ k ∧ dirAt (bfsN q) (k - i.toNat) = true then
          { catalog[k] with next_index := Vdfs.find_index catalog (intToU32 (k : Int)) }
        else catalog[k] := by
  intro N
  induction N with
  | zero =>
    intro root q i catalog out hq hok _ _ _
    cases q with
    | nil =>
      rw [pass2_nil] at hok
      cases hok
      refine ⟨rfl, fun k hk hk2 => ?_⟩
      rw [bfsN_nil, dirAt_nil]
      simp
    | cons n rest =>
      exfalso
      rw [nMeasure_cons] at hq
      have := FileSystemNode.nodeCount_pos n
      omega
  | succ N ih =>
    intro root q i catalog out hq hok hfree hi hbound
    cases q with
    | nil =>
      rw [pass2_nil] at hok
      cases hok
      refine ⟨rfl, fun k hk hk2 => ?_⟩
      rw [bfsN_nil, dirAt_nil]
      simp
    | cons n rest =>
      have hstep := nMeasure_step n rest
      have hmeas : nMeasure (rest ++ n.childrenOf) ≤ N := by omega
      have hboundq : (i + 1) + (nMeasure (rest ++ n.childrenOf) : Int) <
          18446744073709551616 := by omega
      have husz : intToUsize i = i.toNat := intToUsize_eq_toNat hi (by
        have := FileSystemNode.nodeCount_pos n
        rw [nMeasure_cons] at hbound
        omega)
      cases n with
      | directory nm cs lv il =>
        obtain ⟨hbeq, hcs⟩ := occursIn_false_dir
          (hfree (.directory nm cs lv il) (by simp))
        rw [pass2_cons_dir, hbeq] at hok
        simp only [Bool.false_eq_true, if_false] at hok
        by_cases hlt : intToUsize i < catalog.length
        · rw [dif_pos hlt] at hok
          have hfree' : ∀ m ∈ rest ++ cs, FileSystemNode.occursIn root m = false := by
            intro m hm
            rcases List.mem_append.mp hm with hm | hm
            · exact hfree m (by simp [hm])
            · exact hcs m hm
          simp only [FileSystemNode.childrenOf] at hmeas hboundq
          obtain ⟨hlen, hpt⟩ := ih root (rest ++ cs) (i + 1) _ out hmeas hok hfree'
            (by omega) hboundq
          rw [List.length_set] at hlen
          have hfind : ∀ level, Vdfs.find_index (catalog.set (intToUsize i)
              { catalog[intToUsize i] with
                next_index := Vdfs.find_index catalog (intToU32 i) }) level =
              Vdfs.find_index catalog level := by
            intro level
            refine find_index_congr (by rw [List.length_set]) (fun m h1 h2 => ?_) level
            simp only [List.get_eq_getElem]
            rcases eq_or_ne (intToUsize i) m with heq | hne
            · subst heq
              rw [List.getElem_set_self]
            · rw [List.getElem_set_ne hne]
          refine ⟨hlen, fun k hk hk2 => ?_⟩
          have hkset : k < (catalog.set (intToUsize i)
              { catalog[intToUsize i] with
                next_index := Vdfs.find_index catalog (intToU32 i) }).length := by
            rw [List.length_set]
            exact hk
          have hkey := hpt k hkset hk2
          rw [hfind] at hkey
          rw [bfsN_cons]
          simp only [FileSystemNode.childrenOf]
          by_cases hkj : k = i.toNat
          · subst hkj
            rw [if_neg (by intro hcond; omega)] at hkey
            simp only [husz] at hkey
            rw [hkey, List.getElem_set_self]
            have hcast : ((i.toNat : Nat) : Int) = i := by omega
            rw [if_pos ⟨le_rfl, by
              rw [Nat.sub_self, dirAt_cons_zero]
              rfl⟩, hcast]
          · have hne : intToUsize i ≠ k := by rw [husz]; omega
            rw [List.getElem_set_ne hne] at hkey
            by_cases hge : i.toNat ≤ k
            · have hgt : i.toNat < k := by omega
              rcases hdec : dirAt (bfsN (rest ++ cs)) (k - (i + 1).toNat) with _ | _
              · rw [if_neg (by
                    intro hcond
                    rw [hdec] at hcond
                    exact absurd hcond.2 (by simp))] at hkey
                rw [hkey, if_neg (by
                  intro hcond
                  rw [show k - i.toNat = (k - (i + 1).toNat) + 1 by omega,
                    dirAt_cons_succ, hdec] at hcond
                  exact absurd hcond.2 (by simp))]
              · rw [if_pos ⟨by omega, hdec⟩] at hkey
                rw [hkey, if_pos ⟨hge, by
                  rw [show k - i.toNat = (k - (i + 1).toNat) + 1 by omega,
                    dirAt_cons_succ]
                  exact hdec⟩]
            · rw [if_neg (by intro hcond; omega)] at hkey
              rw [hkey, if_neg (by intro hcond; omega)]
        · rw [dif_neg hlt] at hok
          cases hok
      | file nm d lv il =>
        rw [pass2_cons_file] at hok
        have hfree' : ∀ m ∈ rest, FileSystemNode.occursIn root m = false :=
          fun m hm => hfree m (by simp [hm])
        simp only [FileSystemNode.childrenOf, List.append_nil] at hmeas hboundq
        obtain ⟨hlen, hpt⟩ := ih root rest (i + 1) _ out hmeas hok hfree' (by omega) hboundq
        refine ⟨hlen, fun k hk hk2 => ?_⟩
        have hkey := hpt k hk hk2
        rw [bfsN_cons]
        simp only [FileSystemNode.childrenOf, List.append_nil]
        by_cases hkj : k = i.toNat
        · subst hkj
          rw [if_neg (by intro hcond; omega)] at hkey
          rw [hkey, if_neg ?_]
          intro hcond
          rw [Nat.sub_self, dirAt_cons_zero] at hcond
          exact absurd hcond.2 (by simp [FileSystemNode.isDirNode])
        · by_cases hge : i.toNat ≤ k
          · have hgt : i.toNat < k := by omega
            rcases hdec : dirAt (bfsN rest) (k - (i + 1).toNat) with _ | _
            · rw [if_neg (by
                  intro hcond
                  rw [hdec] at hcond
                  exact absurd hcond.2 (by simp))] at hkey
              rw [hkey, if_neg (by
                intro hcond
                rw [show k - i.toNat = (k - (i + 1).toNat) + 1 by omega,
                  dirAt_cons_succ, hdec] at hcond
                exact absurd hcond.2 (by simp))]
            · rw [if_pos ⟨by omega, hdec⟩] at hkey
              rw [hkey, if_pos ⟨hge, by
                rw [show k - i.toNat = (k - (i + 1).toNat) + 1 by omega,
                  dirAt_cons_succ]
                exact hdec⟩]
          · rw [if_neg (by intro hcond; omega)] at hkey
            rw [hkey, if_neg (by intro hcond; omega)]

theorem pass2_ok_char {root : FileSystemNode} {q : List FileSystemNode} {i : Int}
    {catalog out : List VDFSCatalogEntry}
    (hok : pass2 root q i catalog = .ok out)
    (hfree : ∀ n ∈ q, FileSystemNode.occursIn root n = false)
    (hi : 0 ≤ i) (hbound : i + (nMeasure q : Int) < 18446744073709551616) :
    out.length = catalog.length ∧
    ∀ k (hk : k < catalog.length) (hk2 : k < out.length),
      out[k] =
        if i.toNat ≤ k ∧ dirAt (bfsN q) (k - i.toNat) = true then
          { catalog[k] with next_index := Vdfs.find_index catalog (intToU32 (k : Int)) }
        else catalog[k] :=
  pass2_ok_char_aux (nMeasure q) root q i catalog out le_rfl hok hfree hi hbound

/-! ## Characterization of the offset pass -/

/-- The "plain file" predicate the source filters with
(`f.typ == 0 || f.typ == EntryType::LastFile as u32`). -/
def isPlainEntry (e : VDFSCatalogEntry) : Prop :=
  e.typ = 0 ∨ e.typ = EntryType.LastFile

instance : DecidablePred isPlainEntry := fun e => by unfold isPlainEntry; infer_instance

theorem offsetPass_nil (co nf pos : Nat) : offsetPass co nf [] pos = ([], pos) := rfl

theorem offsetPass_cons (co nf : Nat) (e : VDFSCatalogEntry)
    (rest : List VDFSCatalogEntry) (pos : Nat) :
    offsetPass co nf (e :: rest) pos =
      if e.typ = 0 ∨ e.typ = EntryType.LastFile then
        ({ e with next_index := (co + nf * 80 + pos) % U32 } ::
            (offsetPass co nf rest ((pos + e.size) % U32)).1,
          (offsetPass co nf rest ((pos + e.size) % U32)).2)
      else
        (e :: (offsetPass co nf rest pos).1, (offsetPass co nf rest pos).2) := by
  rw [offsetPass]

theorem offsetPass_char (co nf : Nat) : ∀ (l : List VDFSCatalogEntry) (pos : Nat),
    (offsetPass co nf l pos).1.length = l.length ∧
    ∀ k (hk : k < l.length) (hk2 : k < (offsetPass co nf l pos).1.length),
      (offsetPass co nf l pos).1[k] =
        if isPlainEntry l[k] then
          { l[k] with next_index :=
              (co + nf * 80 + pos +
                (((l.take k).filter (fun e => decide (isPlainEntry e))).map
                  (fun e => e.size)).sum) % U32 }
        else l[k] := by
  intro l
  induction l with
  | nil => intro pos; exact ⟨rfl, fun k hk => absurd hk (by simp)⟩
  | cons e rest ih =>
    intro pos
    rw [offsetPass_cons]
    by_cases hp : isPlainEntry e
    · have hp2 : e.typ = 0 ∨ e.typ = EntryType.LastFile := hp
      rw [if_pos hp2]
      obtain ⟨ihlen, ihpt⟩ := ih ((pos + e.size) % U32)
      refine ⟨by simpa using ihlen, fun k hk hk2 => ?_⟩
      cases k with
      | zero =>
        simp only [List.getElem_cons_zero, List.take_zero, List.filter_nil,
          List.map_nil, List.sum_nil, Nat.add_zero]
        rw [if_pos hp]
      | succ k =>
        simp only [List.getElem_cons_succ]
        rw [ihpt k (by simpa using hk) (by simpa using hk2)]
        have hfsum : ((((e :: rest).take (k + 1)).filter
              (fun e => decide (isPlainEntry e))).map (fun e => e.size)).sum =
            e.size + (((rest.take k).filter (fun e => decide (isPlainEntry e))).map
              (fun e => e.size)).sum := by
          have htake : (e :: rest).take (k + 1) = e :: rest.take k := rfl
          rw [htake, List.filter_cons, if_pos (by simpa using hp)]
          simp
        rw [hfsum]
        have harith : (co + nf * 80 + (pos + e.size) % U32 +
            (((rest.take k).filter (fun e => decide (isPlainEntry e))).map
              (fun e => e.size)).sum) % U32 =
            (co + nf * 80 + pos + (e.size +
              (((rest.take k).filter (fun e => decide (isPlainEntry e))).map
                (fun e => e.size)).sum)) % U32 := by
          simp only [U32]
          omega
        rw [harith]
    · have hp2 : ¬(e.typ = 0 ∨ e.typ = EntryType.LastFile) := hp
      rw [if_neg hp2]
      obtain ⟨ihlen, ihpt⟩ := ih pos
      refine ⟨by simpa using ihlen, fun k hk hk2 => ?_⟩
      cases k with
      | zero =>
        simp only [List.getElem_cons_zero]
        rw [if_neg hp]
      | succ k =>
        simp only [List.getElem_cons_succ]
        rw [ihpt k (by simpa using hk) (by simpa using hk2)]
        have hfsum : ((((e :: rest).take (k + 1)).filter
              (fun e => decide (isPlainEntry e))).map (fun e => e.size)).sum =
            (((rest.take k).filter (fun e => decide (isPlainEntry e))).map
              (fun e => e.size)).sum := by
          have htake : (e :: rest).take (k + 1) = e :: rest.take k := rfl
          rw [htake, List.filter_cons, if_neg (by simpa using hp)]
        rw [hfsum]

theorem offsetPass_filter_comm (co nf : Nat) : ∀ (l : List VDFSCatalogEntry) (pos : Nat),
    (offsetPass co nf l pos).1.filter (fun e => decide (isPlainEntry e)) =
      (offsetPass co nf (l.filter (fun e => decide (isPlainEntry e))) pos).1 := by
  intro l
  induction l with
  | nil => intro pos; rfl
  | cons e rest ih =>
    intro pos
    rw [offsetPass_cons, List.filter_cons]
    by_cases hp : isPlainEntry e
    · have hp' : e.typ = 0 ∨ e.typ = EntryType.LastFile := hp
      rw [if_pos hp', if_pos (by simpa using hp)]
      rw [offsetPass_cons, if_pos hp']
      simp only [List.filter_cons]
      rw [if_pos (by simpa using hp)]
      rw [ih ((pos + e.size) % U32)]
    · have hp' : ¬(e.typ = 0 ∨ e.typ = EntryType.LastFile) := hp
      rw [if_neg hp', if_neg (by simpa using hp)]
      simp only [List.filter_cons]
      rw [if_neg (by simpa using hp)]
      exact ih pos

theorem offsetPass_all_plain_rec (co nf : Nat) : ∀ (l : List VDFSCatalogEntry) (pos : Nat),
    (∀ e ∈ l, isPlainEntry e) →
    ∀ m (h1 : m < (offsetPass co nf l pos).1.length)
      (h2 : m + 1 < (offsetPass co nf l pos).1.length),
      (offsetPass co nf l pos).1[m + 1].next_index =
        ((offsetPass co nf l pos).1[m].next_index +
          (offsetPass co nf l pos).1[m].size) % U32 := by
  intro l
  induction l with
  | nil => intro pos _ m h1; exact absurd h1 (by simp [offsetPass_nil])
  | cons e rest ih =>
    intro pos hall m h1 h2
    have hp : e.typ = 0 ∨ e.typ = EntryType.LastFile := hall e (by simp)
    have hout : (offsetPass co nf (e :: rest) pos).1 =
        { e with next_index := (co + nf * 80 + pos) % U32 } ::
          (offsetPass co nf rest ((pos + e.size) % U32)).1 := by
      rw [offsetPass_cons, if_pos hp]
    simp only [hout] at h1 h2 ⊢
    cases m with
    | zero =>
      simp only [List.getElem_cons_succ, List.getElem_cons_zero]
      cases rest with
      | nil => simp [offsetPass_nil] at h2
      | cons e2 rest2 =>
        have hp2 : e2.typ = 0 ∨ e2.typ = EntryType.LastFile := hall e2 (by simp)
        have hout2 : (offsetPass co nf (e2 :: rest2) ((pos + e.size) % U32)).1 =
            { e2 with next_index := (co + nf * 80 + (pos + e.size) % U32) % U32 } ::
              (offsetPass co nf rest2 (((pos + e.size) % U32 + e2.size) % U32)).1 := by
          rw [offsetPass_cons, if_pos hp2]
        simp only [hout2, List.getElem_cons_zero]
        simp only [U32]
        omega
    | succ m =>
      simp only [List.getElem_cons_succ]
      exact ih ((pos + e.size) % U32) (fun x hx => hall x (by simp [hx])) m
        (by simpa using h1) (by simpa using h2)

theorem u32sum_foldl : ∀ (l : List Nat) (a : Nat),
    l.foldl (fun x b => (x + b) % U32) (a % U32) = (a + l.sum) % U32 := by
  intro l
  induction l with
  | nil => intro a; simp
  | cons b rest ih =>
    intro a
    rw [List.foldl_cons, List.sum_cons]
    have : (a % U32 + b) % U32 = (a + b) % U32 := by simp [Nat.add_mod, Nat.mod_mod_of_dvd]
    rw [this, ih (a + b)]
    congr 1
    omega

theorem u32sum_eq (l : List Nat) : u32sum l = l.sum % U32 := by
  have := u32sum_foldl l 0
  simpa [u32sum] using this

theorem optMap_mem_rev {f : α → Option β} : ∀ {l : List α} {l' : List β},
    optMap f l = some l' → ∀ y ∈ l', ∃ x ∈ l, f x = some y := by
  intro l
  induction l with
  | nil =>
    intro l' h y hy
    rw [optMap_nil] at h
    cases h
    exact absurd hy (by simp)
  | cons a as ih =>
    intro l' h y hy
    obtain ⟨z, zs, ha, has, rfl⟩ := optMap_cons_some h
    rcases List.mem_cons.mp hy with rfl | hy
    · exact ⟨a, by simp, ha⟩
    · obtain ⟨x, hx, hfx⟩ := ih has y hy
      exact ⟨x, by simp [hx], hfx⟩

/-- Pass 2 only rewrites `next_index`; every other field of every entry is
unchanged, and the catalog length is preserved. -/
theorem pass2_preserves_aux :
    ∀ (N : Nat) (root : FileSystemNode) (q : List FileSystemNode) (i : Int)
      (catalog out : List VDFSCatalogEntry),
    nMeasure q ≤ N →
    pass2 root q i catalog = .ok out →
    out.length = catalog.length ∧
    ∀ k (hk : k < catalog.length) (hk2 : k < out.length),
      out[k].name_utf8 = catalog[k].name_utf8 ∧
      out[k].name = catalog[k].name ∧
      out[k].size = catalog[k].size ∧
      out[k].typ = catalog[k].typ ∧
      out[k].attributes = catalog[k].attributes ∧
      out[k].parent_id = catalog[k].parent_id ∧
      out[k].is_dir = catalog[k].is_dir := by
  intro N
  induction N with
  | zero =>
    intro root q i catalog out hq hok
    cases q with
    | nil =>
      rw [pass2_nil] at hok
      cases hok
      exact ⟨rfl, fun k hk hk2 => by exact ⟨rfl, rfl, rfl, rfl, rfl, rfl, rfl⟩⟩
    | cons n rest =>
      exfalso
      rw [nMeasure_cons] at hq
      have := FileSystemNode.nodeCount_pos n
      omega
  | succ N ih =>
    intro root q i catalog out hq hok
    cases q with
    | nil =>
      rw [pass2_nil] at hok
      cases hok
      exact ⟨rfl, fun k hk hk2 => by exact ⟨rfl, rfl, rfl, rfl, rfl, rfl, rfl⟩⟩
    | cons n rest =>
      have hstep := nMeasure_step n rest
      have hmeas : nMeasure (rest ++ n.childrenOf) ≤ N := by omega
      cases n with
      | directory nm cs lv il =>
        rw [pass2_cons_dir] at hok
        by_cases hbeq : FileSystemNode.nodeBeq (.directory nm cs lv il) root = true
        · rw [if_pos hbeq] at hok
          simp only [FileSystemNode.childrenOf] at hmeas
          exact ih root (rest ++ cs) (i + 1) catalog out hmeas hok
        · rw [if_neg hbeq] at hok
          by_cases hlt : intToUsize i < catalog.length
          · rw [dif_pos hlt] at hok
            simp only [FileSystemNode.childrenOf] at hmeas
            obtain ⟨hlen, hpt⟩ := ih root (rest ++ cs) (i + 1) _ out hmeas hok
            rw [List.length_set] at hlen
            refine ⟨hlen, fun k hk hk2 => ?_⟩
            have hkset : k < (catalog.set (intToUsize i)
                { catalog[intToUsize i] with
                  next_index := Vdfs.find_index catalog (intToU32 i) }).length := by
              rw [List.length_set]
              exact hk
            have hkey := hpt k hkset hk2
            rcases eq_or_ne (intToUsize i) k with heq | hne
            · subst heq
              rw [List.getElem_set_self] at hkey
              exact hkey
            · rw [List.getElem_set_ne hne] at hkey
              exact hkey
          · rw [dif_neg hlt] at hok
            cases hok
      | file nm d lv il =>
        rw [pass2_cons_file] at hok
        simp only [FileSystemNode.childrenOf, List.append_nil] at hmeas
        exact ih root rest (i + 1) catalog out hmeas hok

theorem pass2_preserves {root : FileSystemNode} {q : List FileSystemNode} {i : Int}
    {catalog out : List VDFSCatalogEntry} (hok : pass2 root q i catalog = .ok out) :
    out.length = catalog.length ∧
    ∀ k (hk : k < catalog.length) (hk2 : k < out.length),
      out[k].name_utf8 = catalog[k].name_utf8 ∧
      out[k].name = catalog[k].name ∧
      out[k].size = catalog[k].size ∧
      out[k].typ = catalog[k].typ ∧
      out[k].attributes = catalog[k].attributes ∧
      out[k].parent_id = catalog[k].parent_id ∧
      out[k].is_dir = catalog[k].is_dir :=
  pass2_preserves_aux (nMeasure q) root q i catalog out le_rfl hok

/-! ## Properties of the tree builder -/

namespace FileSystemNode

theorem levelsGe_mono {j k : Int} (hjk : j ≤ k) : ∀ {t : FileSystemNode},
    levelsGe k t → levelsGe j t := by
  intro t
  induction t using inductionOn with
  | hf name data level is_last =>
    rw [levelsGe_file, levelsGe_file]
    omega
  | hd name cs level is_last ih =>
    rw [levelsGe_dir, levelsGe_dir]
    rintro ⟨h1, h2⟩
    exact ⟨by omega, fun c hc => ih c hc (h2 c hc)⟩

theorem levelsGe_setIsLast (k : Int) (t : FileSystemNode) :
    levelsGe k (setIsLast t) ↔ levelsGe k t := by
  cases t with
  | directory nm cs lv il => rw [setIsLast, levelsGe_dir, levelsGe_dir]
  | file nm d lv il => rw [setIsLast, levelsGe_file, levelsGe_file]

theorem nodeIsLast_setIsLast (t : FileSystemNode) : (setIsLast t).nodeIsLast = true := by
  cases t <;> rfl

theorem childrenOf_setIsLast (t : FileSystemNode) : (setIsLast t).childrenOf = t.childrenOf := by
  cases t <;> rfl

theorem cmp_setIsLast_left (a b : FileSystemNode) :
    cmp_file_system_nodes (setIsLast a) b = cmp_file_system_nodes a b := by
  cases a <;> cases b <;> rfl

theorem cmp_setIsLast_right (a b : FileSystemNode) :
    cmp_file_system_nodes a (setIsLast b) = cmp_file_system_nodes a b := by
  cases a <;> cases b <;> rfl

theorem nodeLe_setIsLast_right (a b : FileSystemNode) :
    nodeLe a (setIsLast b) ↔ nodeLe a b := by
  rw [nodeLe, nodeLe, cmp_setIsLast_right]

theorem pairwise_markLast {l : List FileSystemNode} (h : List.Pairwise nodeLe l) :
    List.Pairwise nodeLe (markLast l) := by
  rcases List.eq_nil_or_concat l with rfl | ⟨l2, x, rfl⟩
  · exact List.Pairwise.nil
  · rw [List.concat_eq_append] at h ⊢
    rw [markLast_append_singleton]
    rw [List.pairwise_append] at h ⊢
    refine ⟨h.1, List.pairwise_singleton _ _, fun a ha b hb => ?_⟩
    rcases List.mem_singleton.mp hb with rfl
    rw [nodeLe_setIsLast_right]
    exact h.2.2 a ha x (by simp)
end FileSystemNode

theorem build_nodeLevel (raw : RawFS) (lvl : Int) :
    (build_file_system_tree raw lvl).nodeLevel = lvl := by
  cases raw with
  | file nm d => rw [build_file]; rfl
  | dir nm rb es => rw [build_file_system_tree]; rfl

theorem build_nodeIsLast (raw : RawFS) (lvl : Int) :
    (build_file_system_tree raw lvl).nodeIsLast = false := by
  cases raw with
  | file nm d => rw [build_file]; rfl
  | dir nm rb es => rw [build_file_system_tree]; rfl

theorem build_children_from (raw : RawFS) (lvl : Int) :
    ∀ c ∈ (build_file_system_tree raw lvl).childrenOf,
      ∃ e, (c = build_file_system_tree e (lvl + 1) ∨
        c = FileSystemNode.setIsLast (build_file_system_tree e (lvl + 1))) := by
  intro c hc
  cases raw with
  | file nm d =>
    rw [build_file] at hc
    exact absurd hc (by simp [FileSystemNode.childrenOf])
  | dir nm rb es =>
    rw [build_dir] at hc
    simp only [FileSystemNode.childrenOf] at hc
    obtain ⟨y, hy, hxy⟩ := FileSystemNode.markLast_mem _ _ hc
    have hy2 : y ∈ (if rb = true then
        es.map (fun e => build_file_system_tree e (lvl + 1)) else []) :=
      (List.perm_insertionSort FileSystemNode.nodeLe _).mem_iff.mp hy
    split at hy2
    · simp only [List.mem_map] at hy2
      obtain ⟨e, _, rfl⟩ := hy2
      exact ⟨e, by tauto⟩
    · exact absurd hy2 (by simp)

theorem build_levelsGe : ∀ (raw : RawFS) (lvl : Int),
    FileSystemNode.levelsGe lvl (build_file_system_tree raw lvl) := by
  intro raw
  induction raw using RawFS.inductionOnRaw with
  | hf nm d =>
    intro lvl
    rw [build_file, FileSystemNode.levelsGe_file]
  | hd nm rb es ih =>
    intro lvl
    rw [build_dir, FileSystemNode.levelsGe_dir]
    refine ⟨le_rfl, fun c hc => ?_⟩
    obtain ⟨y, hy, hxy⟩ := FileSystemNode.markLast_mem _ _ hc
    have hy2 : y ∈ (if rb = true then
        es.map (fun e => build_file_system_tree e (lvl + 1)) else []) :=
      (List.perm_insertionSort FileSystemNode.nodeLe _).mem_iff.mp hy
    have hygood : FileSystemNode.levelsGe lvl y := by
      split at hy2
      · simp only [List.mem_map] at hy2
        obtain ⟨e, he, rfl⟩ := hy2
        exact FileSystemNode.levelsGe_mono (by omega) (ih e he (lvl + 1))
      · exact absurd hy2 (by simp)
    rcases hxy with rfl | rfl
    · exact hygood
    · exact (FileSystemNode.levelsGe_setIsLast _ _).mpr hygood

theorem build_children_levelsGe (raw : RawFS) (lvl : Int) :
    ∀ c ∈ (build_file_system_tree raw lvl).childrenOf,
      FileSystemNode.levelsGe (lvl + 1) c := by
  intro c hc
  cases raw with
  | file nm d =>
    rw [build_file] at hc
    exact absurd hc (by simp [FileSystemNode.childrenOf])
  | dir nm rb es =>
    rw [build_dir] at hc
    simp only [FileSystemNode.childrenOf] at hc
    obtain ⟨y, hy, hxy⟩ := FileSystemNode.markLast_mem _ _ hc
    have hy2 : y ∈ (if rb = true then
        es.map (fun e => build_file_system_tree e (lvl + 1)) else []) :=
      (List.perm_insertionSort FileSystemNode.nodeLe _).mem_iff.mp hy
    have hygood : FileSystemNode.levelsGe (lvl + 1) y := by
      split at hy2
      · simp only [List.mem_map] at hy2
        obtain ⟨e, he, rfl⟩ := hy2
        exact build_levelsGe e (lvl + 1)
      · exact absurd hy2 (by simp)
    rcases hxy with rfl | rfl
    · exact hygood
    · exact (FileSystemNode.levelsGe_setIsLast _ _).mpr hygood

theorem build_root_free (raw : RawFS) (lvl : Int) :
    ∀ c ∈ (build_file_system_tree raw lvl).childrenOf,
      FileSystemNode.occursIn (build_file_system_tree raw lvl) c = false := by
  intro c hc
  refine FileSystemNode.occursIn_false_of_levels (build_children_levelsGe raw lvl c hc) ?_
  rw [build_nodeLevel]
  omega

theorem occursIn_setIsLast {n y : FileSystemNode}
    (h : FileSystemNode.occursIn n (FileSystemNode.setIsLast y) = true) :
    n = FileSystemNode.setIsLast y ∨ FileSystemNode.occursIn n y = true := by
  cases y with
  | directory nm cs lv il =>
    rw [FileSystemNode.setIsLast] at h ⊢
    rw [FileSystemNode.occursIn_dir] at h
    rcases Bool.or_eq_true_iff.mp h with h | h
    · left
      exact ((FileSystemNode.nodeBeq_iff _ _).mp h).symm
    · right
      rw [FileSystemNode.occursIn_dir]
      simp only [Bool.or_eq_true_iff]
      exact Or.inr h
  | file nm d lv il =>
    rw [FileSystemNode.setIsLast] at h ⊢
    rw [FileSystemNode.occursIn_file] at h
    left
    exact ((FileSystemNode.nodeBeq_iff _ _).mp h).symm

theorem mem_sorted_children {rb : Bool} {es : List RawFS} {lvl : Int} {y : FileSystemNode}
    (hy : y ∈ List.insertionSort FileSystemNode.nodeLe
      (if rb = true then es.map (fun e => build_file_system_tree e (lvl + 1)) else [])) :
    ∃ e ∈ es, y = build_file_system_tree e (lvl + 1) := by
  have hy2 := (List.perm_insertionSort FileSystemNode.nodeLe _).mem_iff.mp hy
  split at hy2
  · simp only [List.mem_map] at hy2
    obtain ⟨e, he, rfl⟩ := hy2
    exact ⟨e, he, rfl⟩
  · exact absurd hy2 (by simp)

/-- Every node occurring in a built tree has sorted children
(directories before files, upper-cased names ascending) with exactly the
final child carrying the `is_last` flag. -/
theorem build_subtree_good : ∀ (raw : RawFS) (lvl : Int) (n : FileSystemNode),
    FileSystemNode.occursIn n (build_file_system_tree raw lvl) = true →
    List.Pairwise FileSystemNode.nodeLe n.childrenOf ∧
    (∀ x ∈ n.childrenOf.dropLast, x.nodeIsLast = false) ∧
    (∀ h : n.childrenOf ≠ [], (n.childrenOf.getLast h).nodeIsLast = true) := by
  intro raw
  induction raw using RawFS.inductionOnRaw with
  | hf nm d =>
    intro lvl n h
    rw [build_file, FileSystemNode.occursIn_file] at h
    have := (FileSystemNode.nodeBeq_iff _ _).mp h
    subst this
    simp only [FileSystemNode.childrenOf]
    exact ⟨List.Pairwise.nil, by simp, by simp⟩
  | hd nm rb es ih =>
    intro lvl n h
    rw [build_dir, FileSystemNode.occursIn_dir] at h
    rcases Bool.or_eq_true_iff.mp h with h | h
    · -- n is the built directory itself
      have := (FileSystemNode.nodeBeq_iff _ _).mp h
      subst this
      simp only [FileSystemNode.childrenOf]
      set l := List.insertionSort FileSystemNode.nodeLe
        (if rb = true then es.map (fun e => build_file_system_tree e (lvl + 1)) else []) with hl
      have hmem_false : ∀ y ∈ l, y.nodeIsLast = false := by
        intro y hy
        obtain ⟨e, -, rfl⟩ := mem_sorted_children hy
        exact build_nodeIsLast e (lvl + 1)
      refine ⟨FileSystemNode.pairwise_markLast
        (List.sorted_insertionSort FileSystemNode.nodeLe _), ?_, ?_⟩
      · intro x hx
        rcases List.eq_nil_or_concat l with hnil | ⟨l2, z, hcat⟩
        · rw [hnil] at hx
          exact absurd hx (by simp [FileSystemNode.markLast_nil])
        · rw [hcat, List.concat_eq_append, FileSystemNode.markLast_append_singleton,
            List.dropLast_concat] at hx
          exact hmem_false x (by rw [hcat]; simp [List.concat_eq_append, hx])
      · intro hne
        rcases List.eq_nil_or_concat l with hnil | ⟨l2, z, hcat⟩
        · exfalso
          rw [hnil] at hne
          exact hne rfl
        · have hml : FileSystemNode.markLast l = l2 ++ [FileSystemNode.setIsLast z] := by
            rw [hcat, List.concat_eq_append, FileSystemNode.markLast_append_singleton]
          have h1 : (FileSystemNode.markLast l).getLast? =
              some (FileSystemNode.setIsLast z) := by
            rw [hml, List.getLast?_concat]
          have h2 := List.getLast?_eq_getLast (FileSystemNode.markLast l) hne
          rw [h1] at h2
          rw [← Option.some.inj h2]
          exact FileSystemNode.nodeIsLast_setIsLast z
    · -- n occurs inside one of the children
      simp only [List.any_eq_true] at h
      obtain ⟨c, hc, hocc⟩ := h
      obtain ⟨y, hy, hxy⟩ := FileSystemNode.markLast_mem _ _ hc
      obtain ⟨e, he, rfl⟩ := mem_sorted_children hy
      rcases hxy with rfl | rfl
      · exact ih e he (lvl + 1) n hocc
      · rcases occursIn_setIsLast hocc with rfl | hocc2
        · have hgood := ih e he (lvl + 1) (build_file_system_tree e (lvl + 1))
            (FileSystemNode.occursIn_self _)
          rwa [FileSystemNode.childrenOf_setIsLast]
        · exact ih e he (lvl + 1) n hocc2

/-! ## Destructuring a successful `from_dir` build -/

theorem from_dir_ok_elim {ts : Nat} {raw : RawFS} {v : Vdfs}
    (h : Vdfs.from_dir ts raw = .ok v) :
    ∃ cat1 data1 cat2,
      pass1 (build_file_system_tree raw (-1))
        [(-1, build_file_system_tree raw (-1))] (-1) [] [] = .ok (cat1, data1) ∧
      pass2 (build_file_system_tree raw (-1))
        [build_file_system_tree raw (-1)] (-1) cat1 = .ok cat2 ∧
      v = Vdfs.calculate_data_size
        { header := { VDFSHeader.default ts with
            catalog_offset := 296,
            num_files := cat2.length % U32,
            num_entries := (cat2.filter
              (fun f => decide (f.typ = 0 ∨ f.typ = EntryType.LastFile))).length % U32 },
          fs := build_file_system_tree raw (-1),
          catalog_dirs := (offsetPass 296 (cat2.length % U32) cat2 0).1,
          data := data1,
          curr_pos := (offsetPass 296 (cat2.length % U32) cat2 0).2 } := by
  rw [Vdfs.from_dir] at h
  cases hbc : Vdfs.build_catalog
      { header := VDFSHeader.default ts, fs := build_file_system_tree raw (-1),
        catalog_dirs := [], data := [], curr_pos := 0 } with
  | error c =>
    rw [hbc] at h
    cases h
  | ok w =>
    rw [hbc] at h
    simp only [Except.map] at h
    cases h
    rw [Vdfs.build_catalog] at hbc
    cases hp1 : pass1 (build_file_system_tree raw (-1))
        [(-1, build_file_system_tree raw (-1))] (-1) [] [] with
    | error c =>
      rw [hp1] at hbc
      cases hbc
    | ok pr =>
      obtain ⟨cat1, data1⟩ := pr
      rw [hp1] at hbc
      simp only [] at hbc
      cases hp2 : pass2 (build_file_system_tree raw (-1))
          [build_file_system_tree raw (-1)] (-1) cat1 with
      | error c =>
        rw [hp2] at hbc
        cases hbc
      | ok cat2 =>
        rw [hp2] at hbc
        refine ⟨cat1, data1, cat2, rfl, hp2, ?_⟩
        cases hbc
        rfl

theorem pass1_root_unroll (nm : String) (cs : List FileSystemNode) (lv : Int) (il : Bool)
    (catalog : List VDFSCatalogEntry) (data : List Nat) :
    pass1 (.directory nm cs lv il) [(-1, .directory nm cs lv il)] (-1) catalog data =
      pass1 (.directory nm cs lv il) (cs.map (fun c => ((-1 : Int), c))) 0 catalog data := by
  rw [pass1_cons_dir, if_pos (FileSystemNode.nodeBeq_self _), List.nil_append]
  norm_num

theorem pass2_root_unroll (nm : String) (cs : List FileSystemNode) (lv : Int) (il : Bool)
    (catalog : List VDFSCatalogEntry) :
    pass2 (.directory nm cs lv il) [.directory nm cs lv il] (-1) catalog =
      pass2 (.directory nm cs lv il) cs 0 catalog := by
  rw [pass2_cons_dir, if_pos (FileSystemNode.nodeBeq_self _), List.nil_append]
  norm_num

/-- The children of the built root, in sorted order. -/
def rootChildren (raw : RawFS) : List FileSystemNode :=
  (build_file_system_tree raw (-1)).childrenOf

/-- The pass-1/pass-2 visit sequence with recorded parent indices: BFS from
the root's children (which are tagged with the sentinel parent `-1`). -/
def buildSeq (raw : RawFS) : List (Int × FileSystemNode) :=
  bfsPar ((rootChildren raw).map (fun c => ((-1 : Int), c))) 0

/-- The visit sequence without parent tags. -/
def visitSeq (raw : RawFS) : List FileSystemNode := bfsN (rootChildren raw)

theorem buildSeq_map_snd (raw : RawFS) : (buildSeq raw).map Prod.snd = visitSeq raw := by
  rw [buildSeq, visitSeq, bfsPar_map_snd]
  congr 1
  simp

theorem from_dir_char {ts : Nat} {raw : RawFS} {v : Vdfs}
    (hdr : raw.isDirRaw = true)
    (hok : Vdfs.from_dir ts raw = .ok v) :
    ∃ ents chunks cat2,
      optMap (fun p : Int × FileSystemNode => entryOfNode p.1 p.2) (buildSeq raw) = some ents ∧
      optMap (fun p : Int × FileSystemNode => contentOf p.2) (buildSeq raw) = some chunks ∧
      pass2 (build_file_system_tree raw (-1)) [build_file_system_tree raw (-1)] (-1) ents
        = .ok cat2 ∧
      v.catalog_dirs = (offsetPass 296 (cat2.length % U32) cat2 0).1 ∧
      v.data = chunks.flatten ∧
      v.header.catalog_offset = 296 ∧
      v.header.num_files = cat2.length % U32 ∧
      v.header.num_entries = (cat2.filter
        (fun f => decide (f.typ = 0 ∨ f.typ = EntryType.LastFile))).length % U32 ∧
      v.header.size = u32sum (v.catalog_dirs.map (fun e => e.size)) ∧
      v.header.timestamp = ts ∧ v.header.version = 80 ∧
      v.header.comment = List.replicate 256 26 ∧
      v.header.signature = [80, 83, 86, 68, 83, 67, 95, 86, 50, 46, 48, 48, 10, 13, 10, 13] ∧
      v.fs = build_file_system_tree raw (-1) := by
  obtain ⟨cat1, data1, cat2, hp1, hp2, hv⟩ := from_dir_ok_elim hok
  cases raw with
  | file nm d => exact absurd hdr (by simp [RawFS.isDirRaw])
  | dir nm rb es =>
    have hroot : build_file_system_tree (RawFS.dir nm rb es) (-1) =
        .directory nm (FileSystemNode.markLast (List.insertionSort FileSystemNode.nodeLe
          (if rb = true then es.map (fun e => build_file_system_tree e (-1 + 1)) else [])))
          (-1) false := build_dir nm rb es (-1)
    rw [hroot, pass1_root_unroll] at hp1
    have hfree : ∀ p ∈ (FileSystemNode.markLast (List.insertionSort FileSystemNode.nodeLe
        (if rb = true then es.map (fun e => build_file_system_tree e (-1 + 1)) else []))).map
          (fun c => ((-1 : Int), c)),
        FileSystemNode.occursIn (FileSystemNode.directory nm
          (FileSystemNode.markLast (List.insertionSort FileSystemNode.nodeLe
            (if rb = true then es.map (fun e => build_file_system_tree e (-1 + 1)) else [])))
          (-1) false) p.2 = false := by
      intro p hp
      simp only [List.mem_map] at hp
      obtain ⟨c, hc, rfl⟩ := hp
      have := build_root_free (RawFS.dir nm rb es) (-1) c (by
        rw [hroot]
        simpa [FileSystemNode.childrenOf] using hc)
      rwa [hroot] at this
    obtain ⟨ents, chunks, hents, hchunks, hout1, hout2⟩ := pass1_ok_char hp1 hfree
    simp only [List.nil_append] at hout1 hout2
    refine ⟨ents, chunks, cat2, ?_, ?_, ?_, ?_, ?_, ?_, ?_, ?_, ?_, ?_, ?_, ?_, ?_, ?_⟩
    · rw [buildSeq, rootChildren, hroot]
      simp only [FileSystemNode.childrenOf]
      exact hents
    · rw [buildSeq, rootChildren, hroot]
      simp only [FileSystemNode.childrenOf]
      exact hchunks
    · rw [← hout1]
      exact hp2
    · rw [hv]
      rfl
    · rw [hv, hout2]
      rfl
    · rw [hv]
      rfl
    · rw [hv]
      rfl
    · rw [hv]
      rfl
    · rw [hv]
      rfl
    · rw [hv]
      rfl
    · rw [hv]
      rfl
    · rw [hv]
      rfl
    · rw [hv]
      rfl
    · rw [hv]
      rfl

/-! ## Further glue: find_index, index casts, error codes -/

theorem find_index_eq_getD (catalog : List VDFSCatalogEntry) (level : Nat) :
    Vdfs.find_index catalog level =
      (listPosition (fun item => intToU32 item.parent_id == level) catalog).getD 0 := by
  rw [Vdfs.find_index]
  cases listPosition (fun item => intToU32 item.parent_id == level) catalog <;> rfl

theorem intToU32_ofNat {k : Nat} (hk : k < U32) : intToU32 (k : Int) = k := by
  unfold intToU32
  simp only [U32] at hk ⊢
  omega

theorem intToU32_neg_one : intToU32 (-1) = U32 - 1 := by decide

theorem dirAt_eq_isDirNode (s : List FileSystemNode) (m : Nat) (hm : m < s.length) :
    dirAt s m = s[m].isDirNode := by
  rw [dirAt, List.getElem?_eq_getElem hm]

/-- A file node pass 1 cannot read: missing metadata or unreadable content. -/
def unreadableFile : FileSystemNode → Bool
  | .file _ d _ _ => d.meta == none || d.content == none
  | .directory .. => false

/-- Extract the archive from a successful build (used by concrete witnesses). -/
def vOf (r : Except Nat Vdfs) (dflt : Vdfs) : Vdfs :=
  match r with
  | .ok v => v
  | .error _ => dflt

def dfltV : Vdfs :=
  { header := VDFSHeader.default 0, fs := .file "" ⟨none, none⟩ 0 false,
    catalog_dirs := [], data := [], curr_pos := 0 }

theorem pass1F_error_ne_zero : ∀ (fuel : Nat) (root : FileSystemNode)
    (q : List (Int × FileSystemNode)) (idx : Int) (catalog : List VDFSCatalogEntry)
    (data : List Nat) (c : Nat), pass1F root fuel q idx catalog data = .error c → c ≠ 0 := by
  intro fuel
  induction fuel with
  | zero =>
    intro root q idx catalog data c h
    cases q with
    | nil => rw [pass1F] at h; cases h
    | cons p rest => rw [pass1F] at h; cases h
  | succ fuel ih =>
    intro root q idx catalog data c h
    cases q with
    | nil => rw [pass1F] at h; cases h
    | cons p rest =>
      obtain ⟨par, node⟩ := p
      cases node with
      | directory name children lvl is_last =>
        rw [pass1F] at h
        split at h
        · exact ih _ _ _ _ _ _ h
        · split at h
          · injection h with h; omega
          · exact ih _ _ _ _ _ _ h
      | file name d lvl is_last =>
        rw [pass1F] at h
        split at h
        · injection h with h; omega
        · split at h
          · injection h with h; omega
          · split at h
            · injection h with h; omega
            · exact ih _ _ _ _ _ _ h

theorem pass2F_error_ne_zero : ∀ (fuel : Nat) (root : FileSystemNode)
    (q : List FileSystemNode) (i : Int) (catalog : List VDFSCatalogEntry)
    (c : Nat), pass2F root fuel q i catalog = .error c → c ≠ 0 := by
  intro fuel
  induction fuel with
  | zero =>
    intro root q i catalog c h
    cases q with
    | nil => rw [pass2F] at h; cases h
    | cons p rest => rw [pass2F] at h; cases h
  | succ fuel ih =>
    intro root q i catalog c h
    cases q with
    | nil => rw [pass2F] at h; cases h
    | cons node rest =>
      cases node with
      | directory name children lvl is_last =>
        rw [pass2F] at h
        split at h
        · exact ih _ _ _ _ _ h
        · split at h
          · exact ih _ _ _ _ _ h
          · injection h with h; omega
      | file name d lvl is_last =>
        rw [pass2F] at h
        exact ih _ _ _ _ _ h

theorem from_dir_error_ne_zero {ts : Nat} {raw : RawFS} {c : Nat}
    (h : Vdfs.from_dir ts raw = .error c) : c ≠ 0 := by
  rw [Vdfs.from_dir] at h
  cases hb : Vdfs.build_catalog { header := VDFSHeader.default ts, fs := build_file_system_tree raw (-1), catalog_dirs := [], data := [], curr_pos := 0 } with
  | ok v =>
    rw [hb] at h
    cases h
  | error e =>
    rw [hb] at h
    rw [show Except.map Vdfs.calculate_data_size (Except.error e : Except Nat Vdfs) = Except.error e from rfl] at h
    cases h
    rw [Vdfs.build_catalog] at hb
    cases hp1 : pass1 (build_file_system_tree raw (-1)) [(-1, build_file_system_tree raw (-1))] (-1) [] [] with
    | error c1 =>
      rw [hp1] at hb
      simp only [Except.error.injEq] at hb
      subst hb
      rw [pass1] at hp1
      exact pass1F_error_ne_zero _ _ _ _ _ _ _ hp1
    | ok pr =>
      obtain ⟨cat1, data1⟩ := pr
      rw [hp1] at hb
      simp only [] at hb
      cases hp2 : pass2 (build_file_system_tree raw (-1)) [build_file_system_tree raw (-1)] (-1) cat1 with
      | error c2 =>
        rw [hp2] at hb
        simp only [Except.error.injEq] at hb
        subst hb
        rw [pass2] at hp2
        exact pass2F_error_ne_zero _ _ _ _ _ _ hp2
      | ok cat2 =>
        rw [hp2] at hb
        cases hb

/-! ## Pointwise transfer of entry fields through pass 2 and the offset pass -/

theorem filter_plain_map_size_congr : ∀ {l1 l2 : List VDFSCatalogEntry},
    l1.length = l2.length →
    (∀ k (h1 : k < l1.length) (h2 : k < l2.length),
      l1[k].typ = l2[k].typ ∧ l1[k].size = l2[k].size) →
    (l1.filter (fun e => decide (isPlainEntry e))).map (fun e => e.size) =
      (l2.filter (fun e => decide (isPlainEntry e))).map (fun e => e.size) := by
  intro l1
  induction l1 with
  | nil =>
    intro l2 hlen _
    cases l2 with
    | nil => rfl
    | cons b bs => simp at hlen
  | cons a as ih =>
    intro l2 hlen hpt
    cases l2 with
    | nil => simp at hlen
    | cons b bs =>
      obtain ⟨ht, hs⟩ := hpt 0 (by simp) (by simp)
      simp only [List.getElem_cons_zero] at ht hs
      have htl := @ih bs (by simpa using hlen)
        (fun k h1 h2 => by
          have := hpt (k + 1) (by simpa using h1) (by simpa using h2)
          simpa using this)
      rw [List.filter_cons, List.filter_cons]
      have hdec : decide (isPlainEntry a) = decide (isPlainEntry b) := by
        simp only [isPlainEntry, ht]
      rw [hdec]
      cases hb : decide (isPlainEntry b) with
      | true =>
        simp only [if_true]
        rw [List.map_cons, List.map_cons, hs, htl]
      | false =>
        simp only [Bool.false_eq_true, if_false]
        exact htl

theorem take_pointwise {l1 l2 : List VDFSCatalogEntry} (hlen : l1.length = l2.length)
    (hpt : ∀ k (h1 : k < l1.length) (h2 : k < l2.length),
      l1[k].typ = l2[k].typ ∧ l1[k].size = l2[k].size) (j : Nat) :
    (l1.take j).length = (l2.take j).length ∧
    ∀ k (h1 : k < (l1.take j).length) (h2 : k < (l2.take j).length),
      (l1.take j)[k].typ = (l2.take j)[k].typ ∧
        (l1.take j)[k].size = (l2.take j)[k].size := by
  refine ⟨by simp [hlen], fun k h1 h2 => ?_⟩
  have hk1 : k < l1.length := by simp [List.length_take] at h1; omega
  have hk2 : k < l2.length := by simp [List.length_take] at h2; omega
  rw [List.getElem_take, List.getElem_take]
  exact hpt k hk1 hk2

theorem sum_filter_plain_eq : ∀ (l : List VDFSCatalogEntry),
    (∀ e ∈ l, ¬ isPlainEntry e → e.size = 0) →
    ((l.filter (fun e => decide (isPlainEntry e))).map (fun e => e.size)).sum =
      (l.map (fun e => e.size)).sum := by
  intro l
  induction l with
  | nil => intro _; rfl
  | cons a as ih =>
    intro hz
    rw [List.filter_cons]
    cases ha : decide (isPlainEntry a) with
    | true =>
      simp only [if_true]
      rw [List.map_cons, List.map_cons, List.sum_cons, List.sum_cons,
        ih (fun e he => hz e (by simp [he]))]
    | false =>
      simp only [Bool.false_eq_true, if_false]
      have haz : a.size = 0 := hz a (by simp) (by simpa using ha)
      rw [List.map_cons, List.sum_cons, haz, ih (fun e he => hz e (by simp [he]))]
      omega

theorem from_dir_align {ts : Nat} {raw : RawFS} {v : Vdfs}
    (hdr : raw.isDirRaw = true)
    (hok : Vdfs.from_dir ts raw = .ok v) :
    ∃ ents cat2,
      optMap (fun p : Int × FileSystemNode => entryOfNode p.1 p.2) (buildSeq raw) = some ents ∧
      pass2 (build_file_system_tree raw (-1)) [build_file_system_tree raw (-1)] (-1) ents
        = .ok cat2 ∧
      v.catalog_dirs = (offsetPass 296 (cat2.length % U32) cat2 0).1 ∧
      ents.length = (buildSeq raw).length ∧
      cat2.length = ents.length ∧
      v.catalog_dirs.length = cat2.length ∧
      ∀ k (hk1 : k < v.catalog_dirs.length) (hk2 : k < cat2.length) (hk3 : k < ents.length),
        v.catalog_dirs[k].name_utf8 = ents[k].name_utf8 ∧
        v.catalog_dirs[k].size = ents[k].size ∧
        v.catalog_dirs[k].typ = ents[k].typ ∧
        v.catalog_dirs[k].attributes = ents[k].attributes ∧
        v.catalog_dirs[k].parent_id = ents[k].parent_id ∧
        v.catalog_dirs[k].is_dir = ents[k].is_dir ∧
        (¬ isPlainEntry cat2[k] → v.catalog_dirs[k] = cat2[k]) := by
  obtain ⟨ents, chunks, cat2, hents, hchunks, hp2, hcat, hdata, hco, hnf, hne, hsz,
    hts, hver, hcom, hsig, hfs⟩ := from_dir_char hdr hok
  have hlen1 : ents.length = (buildSeq raw).length := optMap_length hents
  obtain ⟨hlen2, hpres⟩ := pass2_preserves hp2
  have hlen3 : v.catalog_dirs.length = cat2.length := by
    rw [hcat]
    exact (offsetPass_char 296 (cat2.length % U32) cat2 0).1
  refine ⟨ents, cat2, hents, hp2, hcat, hlen1, hlen2, hlen3, fun k hk1 hk2 hk3 => ?_⟩
  have hoff := (offsetPass_char 296 (cat2.length % U32) cat2 0).2 k hk2
    (by rw [← hcat]; exact hk1)
  have hcatk : v.catalog_dirs[k] =
      if isPlainEntry cat2[k] then
        { cat2[k] with next_index :=
            (296 + cat2.length % U32 * 80 + 0 +
              (((cat2.take k).filter (fun e => decide (isPlainEntry e))).map
                (fun e => e.size)).sum) % U32 }
      else cat2[k] := by
    have hkb : k < (offsetPass 296 (cat2.length % U32) cat2 0).1.length := by
      rw [← hcat]; exact hk1
    have : v.catalog_dirs[k] = (offsetPass 296 (cat2.length % U32) cat2 0).1[k] := by
      simp only [hcat]
    rw [this, hoff]
  have hfields := hpres k hk3 hk2
  by_cases hp : isPlainEntry cat2[k]
  · rw [hcatk, if_pos hp]
    obtain ⟨h1, h2, h3, h4, h5, h6, h7⟩ := hfields
    exact ⟨h1, h3, h4, h5, h6, h7, fun hc => absurd hp hc⟩
  · rw [hcatk, if_neg hp]
    obtain ⟨h1, h2, h3, h4, h5, h6, h7⟩ := hfields
    exact ⟨h1, h3, h4, h5, h6, h7, fun _ => rfl⟩

theorem visitSeq_length (raw : RawFS) : (visitSeq raw).length = (buildSeq raw).length := by
  rw [← buildSeq_map_snd, List.length_map]

theorem visitSeq_getElem (raw : RawFS) (k : Nat) (hk : k < (visitSeq raw).length)
    (hk2 : k < (buildSeq raw).length) :
    (visitSeq raw)[k] = ((buildSeq raw)[k]).2 := by
  have h := buildSeq_map_snd raw
  have hk3 : k < ((buildSeq raw).map Prod.snd).length := by
    rw [h]; exact hk
  calc (visitSeq raw)[k] = ((buildSeq raw).map Prod.snd)[k] := by
        simp only [h]
      _ = ((buildSeq raw)[k]).2 := List.getElem_map _

/-- Every catalog entry of a successful build records the fields pass 1
derived from the corresponding BFS-visited node (only `next_index` is
rewritten by the later passes). -/
theorem from_dir_entry_pointwise {ts : Nat} {raw : RawFS} {v : Vdfs}
    (hdr : raw.isDirRaw = true)
    (hok : Vdfs.from_dir ts raw = .ok v) :
    v.catalog_dirs.length = (visitSeq raw).length ∧
    ∀ k (hk1 : k < v.catalog_dirs.length) (hk2 : k < (visitSeq raw).length)
      (hk3 : k < (buildSeq raw).length),
      v.catalog_dirs[k].parent_id = ((buildSeq raw)[k]).1 ∧
      v.catalog_dirs[k].is_dir = ((visitSeq raw)[k]).isDirNode ∧
      v.catalog_dirs[k].name_utf8 = ((visitSeq raw)[k]).nodeName ∧
      v.catalog_dirs[k].attributes = 0 ∧
      v.catalog_dirs[k].size < U32 ∧
      v.catalog_dirs[k].typ =
        (if ((visitSeq raw)[k]).isDirNode = true then
          (if ((visitSeq raw)[k]).nodeIsLast = true then
            EntryType.Dir ||| EntryType.LastFile else EntryType.Dir)
        else (if ((visitSeq raw)[k]).nodeIsLast = true then EntryType.LastFile else 0)) ∧
      (((visitSeq raw)[k]).isDirNode = true → v.catalog_dirs[k].size = 0) ∧
      (((visitSeq raw)[k]).isDirNode = false →
        ∃ d len, ((visitSeq raw)[k]).fileDataOf = some d ∧ d.meta = some len ∧
          v.catalog_dirs[k].size = len % U32) := by
  obtain ⟨ents, cat2, hents, hp2, hcat, hlen1, hlen2, hlen3, hpt⟩ := from_dir_align hdr hok
  have hlenv : v.catalog_dirs.length = (visitSeq raw).length := by
    rw [visitSeq_length, ← hlen1, ← hlen2, ← hlen3]
  refine ⟨hlenv, fun k hk1 hk2 hk3 => ?_⟩
  have hk4 : k < ents.length := by omega
  have hk5 : k < cat2.length := by omega
  have hget := optMap_get hents k hk3 hk4
  have hspec := entryOfNode_spec hget
  have hnode := visitSeq_getElem raw k hk2 hk3
  have hfield := hpt k hk1 hk5 hk4
  obtain ⟨hf1, hf2, hf3, hf4, hf5, hf6, hf7⟩ := hfield
  obtain ⟨hs1, hs2, hs3, hs4, hs5, hs6, hs7, hs8⟩ := hspec
  have hgetE1 : ents[k] = ents.get ⟨k, hk4⟩ := rfl
  have hgetE2 : (buildSeq raw)[k] = (buildSeq raw).get ⟨k, hk3⟩ := rfl
  refine ⟨?_, ?_, ?_, ?_, ?_, ?_, ?_, ?_⟩
  · rw [hf5, hgetE1, hs1, hgetE2]
  · rw [hf6, hgetE1, hs2, hnode, hgetE2]
  · rw [hf1, hgetE1, hs3, hnode, hgetE2]
  · rw [hf4, hgetE1, hs4]
  · rw [hf2, hgetE1]; exact hs5
  · rw [hf3, hgetE1, hs6, hnode, hgetE2]
  · intro hd
    rw [hf2, hgetE1]
    exact hs7 (by rw [hnode, hgetE2] at hd; exact hd)
  · intro hd
    rw [hnode, hgetE2] at hd ⊢
    obtain ⟨d, len, hd1, hd2, hd3⟩ := hs8 hd
    exact ⟨d, len, hd1, hd2, by rw [hf2, hgetE1]; exact hd3⟩

/-! ## Levels of visited nodes; tags of the visit sequence -/

theorem bfsN_levelsGe_aux : ∀ (N : Nat) (k : Int) (q : List FileSystemNode),
    nMeasure q ≤ N → (∀ m ∈ q, FileSystemNode.levelsGe k m) →
    ∀ n ∈ bfsN q, FileSystemNode.levelsGe k n := by
  intro N
  induction N with
  | zero =>
    intro k q hq hlev n hn
    cases q with
    | nil => rw [bfsN_nil] at hn; exact absurd hn (by simp)
    | cons m rest =>
      exfalso
      rw [nMeasure_cons] at hq
      have := FileSystemNode.nodeCount_pos m
      omega
  | succ N ih =>
    intro k q hq hlev n hn
    cases q with
    | nil => rw [bfsN_nil] at hn; exact absurd hn (by simp)
    | cons m rest =>
      rw [bfsN_cons] at hn
      rcases List.mem_cons.mp hn with rfl | hn2
      · exact hlev n (by simp)
      · refine ih k (rest ++ m.childrenOf) (by
          have := nMeasure_step m rest
          omega) ?_ n hn2
        intro x hx
        rcases List.mem_append.mp hx with hx | hx
        · exact hlev x (by simp [hx])
        · have hm := hlev m (by simp)
          cases m with
          | file nm d lv il =>
            exact absurd hx (by simp [FileSystemNode.childrenOf])
          | directory nm cs lv il =>
            rw [FileSystemNode.levelsGe_dir] at hm
            exact hm.2 x (by simpa [FileSystemNode.childrenOf] using hx)

theorem visitSeq_ne_root (raw : RawFS) :
    ∀ n ∈ visitSeq raw, n ≠ build_file_system_tree raw (-1) := by
  intro n hn heq
  have hlev : FileSystemNode.levelsGe 0 n := by
    refine bfsN_levelsGe_aux (nMeasure (rootChildren raw)) 0 (rootChildren raw) le_rfl
      (fun m hm => ?_) n hn
    have := build_children_levelsGe raw (-1) m hm
    simpa using this
  have hge := FileSystemNode.levelsGe_level hlev
  rw [heq, build_nodeLevel] at hge
  omega

theorem buildSeq_tags (raw : RawFS) :
    ∀ p ∈ buildSeq raw, p.1 = -1 ∨ (0 ≤ p.1 ∧ p.1 < ((buildSeq raw).length : Int)) := by
  intro p hp
  have := bfsPar_tags ((rootChildren raw).map (fun c => ((-1 : Int), c))) 0 p hp
  rcases this with h | h
  · left
    simp only [List.map_map, List.mem_map] at h
    obtain ⟨c, _, hc⟩ := h
    exact hc.symm
  · right
    rw [buildSeq]
    omega

/-! ## Classification of catalog-entry type flags -/

theorem catalog_typ_cases {ts : Nat} {raw : RawFS} {v : Vdfs}
    (hdr : raw.isDirRaw = true)
    (hok : Vdfs.from_dir ts raw = .ok v) :
    ∀ e ∈ v.catalog_dirs,
      (e.typ = 0 ∨ e.typ = EntryType.LastFile ∨ e.typ = EntryType.Dir ∨
        e.typ = EntryType.Dir ||| EntryType.LastFile) ∧
      e.typ.testBit 31 = e.is_dir ∧
      (¬ isPlainEntry e → e.size = 0) ∧
      decide (isPlainEntry e) = !(e.typ.testBit 31) := by
  intro e he
  obtain ⟨hlen, hpt⟩ := from_dir_entry_pointwise hdr hok
  obtain ⟨k, hk, rfl⟩ := List.mem_iff_getElem.mp he
  have hk2 : k < (visitSeq raw).length := by omega
  have hk3 : k < (buildSeq raw).length := by
    have := visitSeq_length raw
    omega
  obtain ⟨hpar, hdir, hname, hattr, hszlt, htyp, hdsz, hfsz⟩ := hpt k hk hk2 hk3
  cases hd : ((visitSeq raw)[k]).isDirNode with
  | false =>
    rw [hd] at htyp hdir
    simp only [Bool.false_eq_true, if_false] at htyp
    cases hl : ((visitSeq raw)[k]).nodeIsLast with
    | false =>
      rw [hl] at htyp
      simp only [Bool.false_eq_true, if_false] at htyp
      refine ⟨Or.inl htyp, ?_, ?_, ?_⟩
      · rw [htyp, hdir]; decide
      · intro hnp; exact absurd (Or.inl htyp) hnp
      · simp only [isPlainEntry, htyp]; decide
    | true =>
      rw [hl] at htyp
      simp only [if_true] at htyp
      refine ⟨Or.inr (Or.inl htyp), ?_, ?_, ?_⟩
      · rw [htyp, hdir]; decide
      · intro hnp; exact absurd (Or.inr htyp) hnp
      · simp only [isPlainEntry, htyp]; decide
  | true =>
    rw [hd] at htyp hdir
    simp only [if_true] at htyp
    have hsz0 : (v.catalog_dirs[k]).size = 0 := hdsz hd
    cases hl : ((visitSeq raw)[k]).nodeIsLast with
    | false =>
      rw [hl] at htyp
      simp only [Bool.false_eq_true, if_false] at htyp
      refine ⟨Or.inr (Or.inr (Or.inl htyp)), ?_, fun _ => hsz0, ?_⟩
      · rw [htyp, hdir]; decide
      · simp only [isPlainEntry, htyp]; decide
    | true =>
      rw [hl] at htyp
      simp only [if_true] at htyp
      refine ⟨Or.inr (Or.inr (Or.inr htyp)), ?_, fun _ => hsz0, ?_⟩
      · rw [htyp, hdir]; decide
      · simp only [isPlainEntry, htyp]; decide

/-! ## The claims -/

/-- A small concrete directory tree used by the witnesses. -/
def sampleRaw : RawFS :=
  RawFS.dir "root" true
    [RawFS.file "b" ⟨some 3, some [97, 98, 99]⟩,
     RawFS.dir "sub" true
       [RawFS.file "x" ⟨some 2, some [104, 105]⟩],
     RawFS.file "A" ⟨some 1, some [122]⟩]

/-- C3: for every built archive, the header `size` field is the (u32) sum of
`size` over the plain-file catalog entries; since directory entries have
size 0 this equals the sum over all catalog entries. -/
theorem C3_header_size {ts : Nat} {raw : RawFS} {v : Vdfs}
    (hdr : raw.isDirRaw = true)
    (hok : Vdfs.from_dir ts raw = .ok v) :
    v.header.size =
      (((v.catalog_dirs.filter (fun e => decide (isPlainEntry e))).map
        (fun e => e.size)).sum) % U32 ∧
    v.header.size = ((v.catalog_dirs.map (fun e => e.size)).sum) % U32 ∧
    ∀ e ∈ v.catalog_dirs, e.is_dir = true → e.size = 0 := by
  obtain ⟨ents, chunks, cat2, hents, hchunks, hp2, hcat, hdata, hco, hnf, hne, hsz,
    hts, hver, hcom, hsig, hfs⟩ := from_dir_char hdr hok
  obtain ⟨hlen, hpt⟩ := from_dir_entry_pointwise hdr hok
  have hdirsz : ∀ e ∈ v.catalog_dirs, e.is_dir = true → e.size = 0 := by
    intro e he hd
    obtain ⟨k, hk, rfl⟩ := List.mem_iff_getElem.mp he
    have hk2 : k < (visitSeq raw).length := by omega
    have hk3 : k < (buildSeq raw).length := by
      have := visitSeq_length raw
      omega
    obtain ⟨_, hdir, _, _, _, _, hdsz, _⟩ := hpt k hk hk2 hk3
    exact hdsz (by rw [← hdir]; exact hd)
  have h2 : v.header.size = ((v.catalog_dirs.map (fun e => e.size)).sum) % U32 := by
    rw [hsz, u32sum_eq]
  refine ⟨?_, h2, hdirsz⟩
  rw [h2, sum_filter_plain_eq v.catalog_dirs
    (fun e he hnp => (catalog_typ_cases hdr hok e he).2.2.1 hnp)]

theorem C3_header_size_witness :
    (vOf (Vdfs.from_dir 0 sampleRaw) dfltV).header.size =
      ((((vOf (Vdfs.from_dir 0 sampleRaw) dfltV).catalog_dirs.filter
        (fun e => decide (isPlainEntry e))).map (fun e => e.size)).sum) % U32 ∧
    (vOf (Vdfs.from_dir 0 sampleRaw) dfltV).header.size =
      (((vOf (Vdfs.from_dir 0 sampleRaw) dfltV).catalog_dirs.map
        (fun e => e.size)).sum) % U32 ∧
    ∀ e ∈ (vOf (Vdfs.from_dir 0 sampleRaw) dfltV).catalog_dirs,
      e.is_dir = true → e.size = 0 :=
  @C3_header_size 0 sampleRaw (vOf (Vdfs.from_dir 0 sampleRaw) dfltV) (by decide) (by rfl)

theorem plain_decide_eq (e : VDFSCatalogEntry) :
    decide (isPlainEntry e) = decide (e.typ = 0 ∨ e.typ = EntryType.LastFile) := rfl

/-- C4: header `num_entries` counts the catalog entries whose type flag has
the Directory bit (bit 31) clear — equivalently whose type is exactly 0 or
exactly the LastEntry flag — while `num_files` is the total catalog entry
count (as a u32) and `catalog_offset` is the fixed 296-byte header length. -/
theorem C4_header_counts {ts : Nat} {raw : RawFS} {v : Vdfs}
    (hdr : raw.isDirRaw = true)
    (hok : Vdfs.from_dir ts raw = .ok v) :
    v.header.num_files = v.catalog_dirs.length % U32 ∧
    v.header.num_entries =
      (v.catalog_dirs.filter (fun e => decide (isPlainEntry e))).length % U32 ∧
    v.catalog_dirs.filter (fun e => decide (isPlainEntry e)) =
      v.catalog_dirs.filter (fun e => !(e.typ.testBit 31)) ∧
    v.header.catalog_offset = 296 := by
  obtain ⟨ents, chunks, cat2, hents, hchunks, hp2, hcat, hdata, hco, hnf, hne, hsz,
    hts, hver, hcom, hsig, hfs⟩ := from_dir_char hdr hok
  obtain ⟨ents', cat2', hents', hp2', hcat', hlen1, hlen2, hlen3, hpt⟩ :=
    from_dir_align hdr hok
  have hee : ents' = ents := by
    have := hents'.symm.trans hents
    exact Option.some.inj this
  subst hee
  have hcc : cat2' = cat2 := by
    have := hp2'.symm.trans hp2
    exact Except.ok.inj this
  subst hcc
  obtain ⟨hplen, hpres⟩ := pass2_preserves hp2'
  have hptc : ∀ k (h1 : k < v.catalog_dirs.length) (h2 : k < cat2'.length),
      v.catalog_dirs[k].typ = cat2'[k].typ ∧ v.catalog_dirs[k].size = cat2'[k].size := by
    intro k h1 h2
    have hk3 : k < ents'.length := by omega
    obtain ⟨_, hsize, htyp, _, _, _, _⟩ := hpt k h1 h2 hk3
    obtain ⟨_, _, hs2, ht2, _, _, _⟩ := hpres k hk3 h2
    exact ⟨htyp.trans ht2.symm, hsize.trans hs2.symm⟩
  have hflen : (v.catalog_dirs.filter (fun e => decide (isPlainEntry e))).length =
      (cat2'.filter (fun e => decide (isPlainEntry e))).length := by
    have := @filter_plain_map_size_congr v.catalog_dirs cat2' (by omega) hptc
    have h1 := congrArg List.length this
    simpa using h1
  refine ⟨by rw [hnf]; congr 1; omega, ?_, ?_, hco⟩
  · rw [hne]
    have hconv : cat2'.filter (fun f => decide (f.typ = 0 ∨ f.typ = EntryType.LastFile)) =
        cat2'.filter (fun e => decide (isPlainEntry e)) := rfl
    rw [hconv, ← hflen]
  · refine List.filter_congr (fun e he => ?_)
    exact (catalog_typ_cases hdr hok e he).2.2.2

theorem C4_header_counts_witness :
    (vOf (Vdfs.from_dir 0 sampleRaw) dfltV).header.num_files =
      (vOf (Vdfs.from_dir 0 sampleRaw) dfltV).catalog_dirs.length % U32 ∧
    (vOf (Vdfs.from_dir 0 sampleRaw) dfltV).header.num_entries =
      ((vOf (Vdfs.from_dir 0 sampleRaw) dfltV).catalog_dirs.filter
        (fun e => decide (isPlainEntry e))).length % U32 ∧
    (vOf (Vdfs.from_dir 0 sampleRaw) dfltV).catalog_dirs.filter
        (fun e => decide (isPlainEntry e)) =
      (vOf (Vdfs.from_dir 0 sampleRaw) dfltV).catalog_dirs.filter
        (fun e => !(e.typ.testBit 31)) ∧
    (vOf (Vdfs.from_dir 0 sampleRaw) dfltV).header.catalog_offset = 296 :=
  @C4_header_counts 0 sampleRaw (vOf (Vdfs.from_dir 0 sampleRaw) dfltV) (by decide) (by rfl)

/-- C9: catalog-entry and header construction are partial: a name longer
than 64 bytes makes `VDFSCatalogEntry::new` abort (modelled as `none`), a
comment longer than 256 bytes likewise aborts the comment write; a name of
at most 64 bytes is upper-cased into the 64-byte field whose remainder
stays space-padded. -/
theorem C9_partial_constructors (name cm : String) (h : VDFSHeader) :
    (64 < (strBytes name).length → VDFSCatalogEntry.new name = none) ∧
    ((strBytes name).length ≤ 64 →
      VDFSCatalogEntry.new name = some { entryDefault with
        name := (strBytes name).map asciiUpper ++
          List.replicate (64 - (strBytes name).length) 32,
        name_utf8 := name }) ∧
    (∀ e, VDFSCatalogEntry.new name = some e → e.name.length = 64) ∧
    (256 < (strBytes cm).length → h.setComment cm = none) ∧
    ((strBytes cm).length ≤ 256 →
      h.setComment cm = some { h with
        comment := strBytes cm ++ h.comment.drop (strBytes cm).length }) := by
  refine ⟨?_, ?_, ?_, ?_, ?_⟩
  · intro hgt
    rw [VDFSCatalogEntry.new]
    split
    · next h2 => exact absurd h2 (by omega)
    · rfl
  · intro hle
    rw [VDFSCatalogEntry.new]
    split
    · rfl
    · next h2 => exact absurd hle h2
  · intro e he
    obtain ⟨he2, hle⟩ := new_fields he
    subst he2
    simp only [List.length_append, List.length_map, List.length_replicate]
    omega
  · intro hgt
    rw [VDFSHeader.setComment]
    split
    · next h2 => exact absurd h2 (by omega)
    · rfl
  · intro hle
    rw [VDFSHeader.setComment]
    split
    · rfl
    · next h2 => exact absurd hle h2

theorem C9_partial_constructors_witness :
    (strBytes "ab").length ≤ 64 ∧
    VDFSCatalogEntry.new "ab" = some { entryDefault with
      name := (strBytes "ab").map asciiUpper ++
        List.replicate (64 - (strBytes "ab").length) 32,
      name_utf8 := "ab" } :=
  ⟨by decide, (C9_partial_constructors "ab" "c" (VDFSHeader.default 0)).2.1 (by decide)⟩

/-- A tree holding a file whose metadata length exceeds 2^32 (used by the
C10 witness: the stored catalog size is the length reduced mod 2^32 while
the data buffer receives the full content). -/
def bigRaw : RawFS :=
  RawFS.dir "root" true [RawFS.file "huge" ⟨some 4294967299, some [1, 2, 3]⟩]

/-- C10: file sizes are truncated to 32 bits: each catalog entry derived
from a file stores its metadata length mod 2^32, the header size is a mod-
2^32 sum, while the data buffer receives the files' full contents. -/
theorem C10_size_truncation {ts : Nat} {raw : RawFS} {v : Vdfs}
    (hdr : raw.isDirRaw = true)
    (hok : Vdfs.from_dir ts raw = .ok v) :
    ∃ chunks,
      optMap (fun p : Int × FileSystemNode => contentOf p.2) (buildSeq raw) = some chunks ∧
      v.data = chunks.flatten ∧
      v.header.size = ((v.catalog_dirs.map (fun e => e.size)).sum) % U32 ∧
      v.catalog_dirs.length = (visitSeq raw).length ∧
      ∀ k (hk1 : k < v.catalog_dirs.length) (hk2 : k < (visitSeq raw).length),
        ∀ d, ((visitSeq raw)[k]).fileDataOf = some d →
          ∃ len, d.meta = some len ∧ v.catalog_dirs[k].size = len % U32 := by
  obtain ⟨ents, chunks, cat2, hents, hchunks, hp2, hcat, hdata, hco, hnf, hne, hsz,
    hts, hver, hcom, hsig, hfs⟩ := from_dir_char hdr hok
  obtain ⟨hlen, hpt⟩ := from_dir_entry_pointwise hdr hok
  refine ⟨chunks, hchunks, hdata, by rw [hsz, u32sum_eq], hlen, ?_⟩
  intro k hk1 hk2 d hd
  have hk3 : k < (buildSeq raw).length := by
    have := visitSeq_length raw
    omega
  obtain ⟨_, _, _, _, _, _, _, hfile⟩ := hpt k hk1 hk2 hk3
  have hnd : ((visitSeq raw)[k]).isDirNode = false := by
    cases hn : (visitSeq raw)[k] with
    | directory nm cs lv il =>
      rw [hn] at hd
      exact absurd hd (by simp [FileSystemNode.fileDataOf])
    | file nm d2 lv il => rfl
  obtain ⟨d2, len, hd2, hm2, hs2⟩ := hfile hnd
  obtain rfl : d = d2 := Option.some.inj (hd.symm.trans hd2)
  exact ⟨len, hm2, hs2⟩

theorem C10_size_truncation_witness :
    ∃ chunks,
      optMap (fun p : Int × FileSystemNode => contentOf p.2) (buildSeq bigRaw)
        = some chunks ∧
      (vOf (Vdfs.from_dir 0 bigRaw) dfltV).data = chunks.flatten ∧
      (vOf (Vdfs.from_dir 0 bigRaw) dfltV).header.size =
        (((vOf (Vdfs.from_dir 0 bigRaw) dfltV).catalog_dirs.map
          (fun e => e.size)).sum) % U32 ∧
      (vOf (Vdfs.from_dir 0 bigRaw) dfltV).catalog_dirs.length =
        (visitSeq bigRaw).length ∧
      ∀ k (hk1 : k < (vOf (Vdfs.from_dir 0 bigRaw) dfltV).catalog_dirs.length)
        (hk2 : k < (visitSeq bigRaw).length),
        ∀ d, ((visitSeq bigRaw)[k]).fileDataOf = some d →
          ∃ len, d.meta = some len ∧
            (vOf (Vdfs.from_dir 0 bigRaw) dfltV).catalog_dirs[k].size = len % U32 :=
  @C10_size_truncation 0 bigRaw (vOf (Vdfs.from_dir 0 bigRaw) dfltV) (by decide) (by rfl)

/-- C7: pass 1 visits nodes in BFS order starting from the root's children
(the visit sequence with parent tags is `buildSeq`), emits exactly one
catalog entry per visited node (same length, matching names), and the root
node itself is never visited, hence never emitted. -/
theorem C7_bfs_enumeration {ts : Nat} {raw : RawFS} {v : Vdfs}
    (hdr : raw.isDirRaw = true)
    (hok : Vdfs.from_dir ts raw = .ok v) :
    ∃ ents,
      optMap (fun p : Int × FileSystemNode => entryOfNode p.1 p.2) (buildSeq raw)
        = some ents ∧
      v.catalog_dirs.length = (visitSeq raw).length ∧
      ents.length = (visitSeq raw).length ∧
      (buildSeq raw).map Prod.snd = visitSeq raw ∧
      (∀ k (hk1 : k < v.catalog_dirs.length) (hk2 : k < (visitSeq raw).length),
        v.catalog_dirs[k].name_utf8 = ((visitSeq raw)[k]).nodeName) ∧
      ∀ n ∈ visitSeq raw, n ≠ v.fs := by
  obtain ⟨ents, chunks, cat2, hents, hchunks, hp2, hcat, hdata, hco, hnf, hne, hsz,
    hts, hver, hcom, hsig, hfs⟩ := from_dir_char hdr hok
  obtain ⟨hlen, hpt⟩ := from_dir_entry_pointwise hdr hok
  refine ⟨ents, hents, hlen, ?_, buildSeq_map_snd raw, ?_, ?_⟩
  · rw [optMap_length hents, visitSeq_length]
  · intro k hk1 hk2
    have hk3 : k < (buildSeq raw).length := by
      have := visitSeq_length raw
      omega
    exact (hpt k hk1 hk2 hk3).2.2.1
  · intro n hn
    rw [hfs]
    exact visitSeq_ne_root raw n hn

theorem C7_bfs_enumeration_witness :
    ∃ ents,
      optMap (fun p : Int × FileSystemNode => entryOfNode p.1 p.2) (buildSeq sampleRaw)
        = some ents ∧
      (vOf (Vdfs.from_dir 0 sampleRaw) dfltV).catalog_dirs.length
        = (visitSeq sampleRaw).length ∧
      ents.length = (visitSeq sampleRaw).length ∧
      (buildSeq sampleRaw).map Prod.snd = visitSeq sampleRaw ∧
      (∀ k (hk1 : k < (vOf (Vdfs.from_dir 0 sampleRaw) dfltV).catalog_dirs.length)
        (hk2 : k < (visitSeq sampleRaw).length),
        (vOf (Vdfs.from_dir 0 sampleRaw) dfltV).catalog_dirs[k].name_utf8
          = ((visitSeq sampleRaw)[k]).nodeName) ∧
      ∀ n ∈ visitSeq sampleRaw, n ≠ (vOf (Vdfs.from_dir 0 sampleRaw) dfltV).fs :=
  @C7_bfs_enumeration 0 sampleRaw (vOf (Vdfs.from_dir 0 sampleRaw) dfltV) (by decide) (by rfl)

/-- C8 (counterexample to the claim as stated): an unreadable directory is
not skipped by the tree builder — it is kept as a directory node with no
children, so it still appears among its parent's children. -/
theorem C8_unreadable_dir_counterexample :
    build_file_system_tree
      (RawFS.dir "root" true
        [RawFS.dir "bad" false [RawFS.file "hidden" ⟨some 1, some [65]⟩]]) (-1) =
      FileSystemNode.directory "root"
        [FileSystemNode.directory "bad" [] 0 true] (-1) false ∧
    (build_file_system_tree
      (RawFS.dir "root" true
        [RawFS.dir "bad" false [RawFS.file "hidden" ⟨some 1, some [65]⟩]]) (-1)).childrenOf
      ≠ [] := ⟨by decide, by decide⟩

/-- C8 (amended): a directory that cannot be read is not skipped: it is
kept as a childless directory node (its contents are silently dropped, no
diagnostic), and the walk continues over all remaining sibling entries. -/
theorem C8_unreadable_dir (nm pnm : String) (es pre post : List RawFS) (lvl : Int) :
    build_file_system_tree (RawFS.dir nm false es) lvl =
      FileSystemNode.directory nm [] lvl false ∧
    build_file_system_tree (RawFS.dir pnm true (pre ++ RawFS.dir nm false es :: post)) lvl =
      FileSystemNode.directory pnm
        (FileSystemNode.markLast (List.insertionSort FileSystemNode.nodeLe
          ((pre.map (fun e => build_file_system_tree e (lvl + 1))) ++
            FileSystemNode.directory nm [] (lvl + 1) false ::
              (post.map (fun e => build_file_system_tree e (lvl + 1)))))) lvl false := by
  refine ⟨build_dir_unreadable nm es lvl, ?_⟩
  rw [build_dir]
  rw [if_pos rfl, List.map_append, List.map_cons, build_dir_unreadable]

/-- C5: in every directory node of a built tree the children are sorted by
the source comparator (directories before files, case-insensitively
ascending names) and exactly the final child carries the `is_last` flag;
the flag is carried into the catalog as the LastEntry bit (bit 30). -/
theorem C5_sorted_children (raw : RawFS) (lvl : Int) (n : FileSystemNode)
    (hn : FileSystemNode.occursIn n (build_file_system_tree raw lvl) = true) :
    List.Pairwise FileSystemNode.nodeLe n.childrenOf ∧
    (∀ x ∈ n.childrenOf.dropLast, x.nodeIsLast = false) ∧
    (∀ h : n.childrenOf ≠ [], (n.childrenOf.getLast h).nodeIsLast = true) ∧
    (∀ par e, entryOfNode par n = some e → e.typ.testBit 30 = n.nodeIsLast) := by
  obtain ⟨h1, h2, h3⟩ := build_subtree_good raw lvl n hn
  refine ⟨h1, h2, h3, ?_⟩
  intro par e he
  obtain ⟨_, _, _, _, _, htyp, _, _⟩ := entryOfNode_spec he
  rw [htyp]
  cases hd : n.isDirNode <;> cases hl : n.nodeIsLast <;>
    simp only [hd, hl, if_true, Bool.false_eq_true, if_false] <;> decide

theorem C5_sorted_children_witness :
    List.Pairwise FileSystemNode.nodeLe
      (build_file_system_tree sampleRaw 0).childrenOf ∧
    (∀ x ∈ (build_file_system_tree sampleRaw 0).childrenOf.dropLast,
      x.nodeIsLast = false) ∧
    (∀ h : (build_file_system_tree sampleRaw 0).childrenOf ≠ [],
      ((build_file_system_tree sampleRaw 0).childrenOf.getLast h).nodeIsLast = true) ∧
    (∀ par e, entryOfNode par (build_file_system_tree sampleRaw 0) = some e →
      e.typ.testBit 30 = (build_file_system_tree sampleRaw 0).nodeIsLast) :=
  C5_sorted_children sampleRaw 0 (build_file_system_tree sampleRaw 0)
    (FileSystemNode.occursIn_self _)

/-- A directory holding a file whose metadata read fails (C6 witness). -/
def badFileRaw : RawFS := RawFS.dir "root" true [RawFS.file "f" ⟨none, some [1]⟩]

/-- C6: if reading any visited file's metadata or content fails during
linearization, the whole build aborts with a non-zero code and `main`
produces no output bytes (the serializer runs only on a successful
archive). -/
theorem C6_unreadable_aborts {ts : Nat} {raw : RawFS}
    (hdr : raw.isDirRaw = true)
    (hbad : (visitSeq raw).any unreadableFile = true) :
    ∃ c, c ≠ 0 ∧ Vdfs.from_dir ts raw = Except.error c ∧
      ∀ comment, mainFromDir ts raw comment = Except.error c := by
  cases h : Vdfs.from_dir ts raw with
  | ok v =>
    exfalso
    obtain ⟨ents, chunks, cat2, hents, hchunks, hp2, hcat, hdata, hco, hnf, hne, hsz,
      hts, hver, hcom, hsig, hfs⟩ := from_dir_char hdr h
    simp only [List.any_eq_true] at hbad
    obtain ⟨n, hn, hun⟩ := hbad
    rw [← buildSeq_map_snd] at hn
    obtain ⟨p, hp, rfl⟩ := List.mem_map.mp hn
    obtain ⟨e, he⟩ := optMap_mem_some hents p hp
    obtain ⟨bs, hbs⟩ := optMap_mem_some hchunks p hp
    cases hnode : p.2 with
    | directory nm cs lv il =>
      rw [hnode] at hun
      exact absurd hun (by simp [unreadableFile])
    | file nm d lv il =>
      rw [hnode] at hun he hbs
      cases hm : d.meta with
      | none =>
        rw [entryOfNode, hm] at he
        cases he
      | some len =>
        rw [contentOf] at hbs
        rw [unreadableFile, hm, hbs] at hun
        simp at hun
  | error c =>
    refine ⟨c, from_dir_error_ne_zero h, rfl, fun comment => ?_⟩
    rw [mainFromDir, h]

theorem C6_unreadable_aborts_witness :
    badFileRaw.isDirRaw = true ∧
    (visitSeq badFileRaw).any unreadableFile = true ∧
    (∃ c, c ≠ 0 ∧ Vdfs.from_dir 0 badFileRaw = Except.error c ∧
      ∀ comment, mainFromDir 0 badFileRaw comment = Except.error c) :=
  ⟨by decide, by decide, C6_unreadable_aborts (by decide) (by decide)⟩

theorem from_dir_typ_size_pointwise {ts : Nat} {raw : RawFS} {v : Vdfs}
    (hdr : raw.isDirRaw = true)
    (hok : Vdfs.from_dir ts raw = .ok v) :
    ∃ cat2, v.catalog_dirs = (offsetPass 296 (cat2.length % U32) cat2 0).1 ∧
      v.catalog_dirs.length = cat2.length ∧
      v.header.num_files = cat2.length % U32 ∧
      ∀ k (h1 : k < v.catalog_dirs.length) (h2 : k < cat2.length),
        v.catalog_dirs[k].typ = cat2[k].typ ∧ v.catalog_dirs[k].size = cat2[k].size := by
  obtain ⟨ents, chunks, cat2, hents, hchunks, hp2, hcat, hdata, hco, hnf, hne, hsz,
    hts, hver, hcom, hsig, hfs⟩ := from_dir_char hdr hok
  obtain ⟨ents', cat2', hents', hp2', hcat', hlen1, hlen2, hlen3, hpt⟩ :=
    from_dir_align hdr hok
  have hee : ents' = ents := Option.some.inj (hents'.symm.trans hents)
  subst hee
  have hcc : cat2' = cat2 := Except.ok.inj (hp2'.symm.trans hp2)
  subst hcc
  obtain ⟨hplen, hpres⟩ := pass2_preserves hp2'
  refine ⟨cat2', hcat', hlen3, hnf, fun k h1 h2 => ?_⟩
  have hk3 : k < ents'.length := by omega
  obtain ⟨_, hsize, htyp, _, _, _, _⟩ := hpt k h1 h2 hk3
  obtain ⟨_, _, hs2, ht2, _, _, _⟩ := hpres k hk3 h2
  exact ⟨htyp.trans ht2.symm, hsize.trans hs2.symm⟩

/-- C2: after the offset pass, every plain-file entry's `next_index` equals
`catalog_offset + num_files * 80 +` the sum of the sizes of the preceding
plain-file entries (the running data offset starts at 0), all reduced mod
2^32; consequently consecutive plain-file entries satisfy
`next_index[i+1] = (next_index[i] + size[i]) % 2^32`. -/
theorem C2_file_offsets {ts : Nat} {raw : RawFS} {v : Vdfs}
    (hdr : raw.isDirRaw = true)
    (hok : Vdfs.from_dir ts raw = .ok v) :
    (∀ k (hk : k < v.catalog_dirs.length), isPlainEntry v.catalog_dirs[k] →
      v.catalog_dirs[k].next_index =
        (v.header.catalog_offset + v.header.num_files * 80 +
          (((v.catalog_dirs.take k).filter (fun e => decide (isPlainEntry e))).map
            (fun e => e.size)).sum) % U32) ∧
    (∀ m (h1 : m < (v.catalog_dirs.filter (fun e => decide (isPlainEntry e))).length)
      (h2 : m + 1 < (v.catalog_dirs.filter (fun e => decide (isPlainEntry e))).length),
      (v.catalog_dirs.filter (fun e => decide (isPlainEntry e)))[m + 1].next_index =
        ((v.catalog_dirs.filter (fun e => decide (isPlainEntry e)))[m].next_index +
          (v.catalog_dirs.filter (fun e => decide (isPlainEntry e)))[m].size) % U32) := by
  obtain ⟨ents, chunks, cat2x, hents, hchunks, hp2, hcatx, hdata, hco, hnfx, hne, hsz,
    hts, hver, hcom, hsig, hfs⟩ := from_dir_char hdr hok
  obtain ⟨cat2, hcat, hlen, hnf, hptc⟩ := from_dir_typ_size_pointwise hdr hok
  constructor
  · intro k hk hp
    have hk2 : k < cat2.length := by omega
    have hoffl : k < (offsetPass 296 (cat2.length % U32) cat2 0).1.length := by
      rw [← hcat]; exact hk
    have hoff := (offsetPass_char 296 (cat2.length % U32) cat2 0).2 k hk2 hoffl
    have hcatk : v.catalog_dirs[k] = (offsetPass 296 (cat2.length % U32) cat2 0).1[k] := by
      simp only [hcat]
    have hplain2 : isPlainEntry cat2[k] := by
      have := (hptc k hk hk2).1
      rw [isPlainEntry, ← this]
      exact hp
    rw [hcatk, hoff, if_pos hplain2]
    have hsum : (((cat2.take k).filter (fun e => decide (isPlainEntry e))).map
          (fun e => e.size)).sum =
        (((v.catalog_dirs.take k).filter (fun e => decide (isPlainEntry e))).map
          (fun e => e.size)).sum := by
      obtain ⟨htl, htp⟩ := @take_pointwise v.catalog_dirs cat2 (by omega) hptc k
      rw [filter_plain_map_size_congr htl.symm
        (fun j j1 j2 => ⟨((htp j j2 j1).1).symm, ((htp j j2 j1).2).symm⟩)]
    rw [hco, hnf, hsum]
    simp only [Nat.add_zero]
  · have hfilter : v.catalog_dirs.filter (fun e => decide (isPlainEntry e)) =
        (offsetPass 296 (cat2.length % U32)
          (cat2.filter (fun e => decide (isPlainEntry e))) 0).1 := by
      rw [hcat, offsetPass_filter_comm]
    intro m h1 h2
    have h1x : m < (offsetPass 296 (cat2.length % U32)
        (cat2.filter (fun e => decide (isPlainEntry e))) 0).1.length := by
      rw [← hfilter]; exact h1
    have h2x : m + 1 < (offsetPass 296 (cat2.length % U32)
        (cat2.filter (fun e => decide (isPlainEntry e))) 0).1.length := by
      rw [← hfilter]; exact h2
    have hrec := offsetPass_all_plain_rec 296 (cat2.length % U32)
      (cat2.filter (fun e => decide (isPlainEntry e))) 0
      (fun e he => by simpa using (List.mem_filter.mp he).2) m h1x h2x
    have hgetj : ∀ j (hja : j < (v.catalog_dirs.filter
          (fun e => decide (isPlainEntry e))).length)
        (hjb : j < (offsetPass 296 (cat2.length % U32)
          (cat2.filter (fun e => decide (isPlainEntry e))) 0).1.length),
        (v.catalog_dirs.filter (fun e => decide (isPlainEntry e)))[j] =
          (offsetPass 296 (cat2.length % U32)
            (cat2.filter (fun e => decide (isPlainEntry e))) 0).1[j] := by
      intro j hja hjb
      simp only [hfilter]
    rw [hgetj (m + 1) h2 h2x, hgetj m h1 h1x]
    exact hrec

theorem C2_file_offsets_witness :
    (∀ k (hk : k < (vOf (Vdfs.from_dir 0 sampleRaw) dfltV).catalog_dirs.length),
      isPlainEntry (vOf (Vdfs.from_dir 0 sampleRaw) dfltV).catalog_dirs[k] →
      (vOf (Vdfs.from_dir 0 sampleRaw) dfltV).catalog_dirs[k].next_index =
        ((vOf (Vdfs.from_dir 0 sampleRaw) dfltV).header.catalog_offset +
          (vOf (Vdfs.from_dir 0 sampleRaw) dfltV).header.num_files * 80 +
          ((((vOf (Vdfs.from_dir 0 sampleRaw) dfltV).catalog_dirs.take k).filter
            (fun e => decide (isPlainEntry e))).map (fun e => e.size)).sum) % U32) ∧
    (∀ m (h1 : m < ((vOf (Vdfs.from_dir 0 sampleRaw) dfltV).catalog_dirs.filter
        (fun e => decide (isPlainEntry e))).length)
      (h2 : m + 1 < ((vOf (Vdfs.from_dir 0 sampleRaw) dfltV).catalog_dirs.filter
        (fun e => decide (isPlainEntry e))).length),
      ((vOf (Vdfs.from_dir 0 sampleRaw) dfltV).catalog_dirs.filter
        (fun e => decide (isPlainEntry e)))[m + 1].next_index =
        (((vOf (Vdfs.from_dir 0 sampleRaw) dfltV).catalog_dirs.filter
          (fun e => decide (isPlainEntry e)))[m].next_index +
          ((vOf (Vdfs.from_dir 0 sampleRaw) dfltV).catalog_dirs.filter
            (fun e => decide (isPlainEntry e)))[m].size) % U32) :=
  @C2_file_offsets 0 sampleRaw (vOf (Vdfs.from_dir 0 sampleRaw) dfltV) (by decide) (by rfl)

/-- C1: for every directory entry at flat index `k` of a built archive,
pass 2 set its `next_index` to the lowest flat index whose recorded
`parent_id` (read back as u32) equals `k`, defaulting to 0; the entries
whose parent is `k` are exactly the children of the `k`-th BFS-visited node
in sorted order, so a directory with children gets the flat index of its
first sorted child and a childless directory keeps `next_index = 0`. -/
theorem C1_next_index {ts : Nat} {raw : RawFS} {v : Vdfs}
    (hdr : raw.isDirRaw = true)
    (hok : Vdfs.from_dir ts raw = .ok v)
    (hsmall : v.catalog_dirs.length ≤ 2147483648) :
    ∀ k (hk : k < v.catalog_dirs.length) (hk2 : k < (visitSeq raw).length),
      v.catalog_dirs[k].is_dir = true →
      v.catalog_dirs[k].next_index =
        (listPosition (fun e => intToU32 e.parent_id == k) v.catalog_dirs).getD 0 ∧
      ((buildSeq raw).filter (fun p => p.1 == (k : Int))).map Prod.snd =
        ((visitSeq raw)[k]).childrenOf ∧
      (((visitSeq raw)[k]).childrenOf = [] → v.catalog_dirs[k].next_index = 0) ∧
      (∀ hc : ((visitSeq raw)[k]).childrenOf ≠ [],
        ∃ j, listPosition (fun e => intToU32 e.parent_id == k) v.catalog_dirs = some j ∧
          v.catalog_dirs[k].next_index = j ∧
          (visitSeq raw)[j]? = some (((visitSeq raw)[k]).childrenOf.head hc)) := by
  obtain ⟨ents, cat2, hents, hp2, hcat, hlen1, hlen2, hlen3, hpt⟩ := from_dir_align hdr hok
  obtain ⟨hlenp, hptp⟩ := from_dir_entry_pointwise hdr hok
  obtain ⟨hplen, hpres⟩ := pass2_preserves hp2
  have hvl := visitSeq_length raw
  cases raw with
  | file nm d => exact absurd hdr (by simp [RawFS.isDirRaw])
  | dir nm rb es =>
    have hroot := build_dir nm rb es (-1)
    set cs0 := FileSystemNode.markLast (List.insertionSort FileSystemNode.nodeLe
      (if rb = true then es.map (fun e => build_file_system_tree e (-1 + 1)) else []))
      with hcs0
    have hq0 : buildSeq (RawFS.dir nm rb es) =
        bfsPar (cs0.map (fun c => ((-1 : Int), c))) 0 := by
      rw [buildSeq, rootChildren, hroot]
      simp only [FileSystemNode.childrenOf]
    have hvs : visitSeq (RawFS.dir nm rb es) = bfsN cs0 := by
      rw [visitSeq, rootChildren, hroot]
      simp only [FileSystemNode.childrenOf]
    rw [hroot, pass2_root_unroll] at hp2
    have hfree : ∀ n ∈ cs0, FileSystemNode.occursIn
        (FileSystemNode.directory nm cs0 (-1) false) n = false := by
      intro n hn
      have := build_root_free (RawFS.dir nm rb es) (-1) n (by
        rw [hroot]
        simpa [FileSystemNode.childrenOf] using hn)
      rwa [hroot] at this
    have hnm : nMeasure cs0 = v.catalog_dirs.length := by
      have h1 : (bfsN cs0).length = nMeasure cs0 := bfsN_length cs0
      rw [← hvs] at h1
      omega
    obtain ⟨hplen2, hpw2⟩ := pass2_ok_char hp2 hfree (by norm_num)
      (by
        rw [show nMeasure cs0 = v.catalog_dirs.length from hnm]
        omega)
    intro k hk hk2
    intro hdirk
    have hk3 : k < (buildSeq (RawFS.dir nm rb es)).length := by omega
    have hkc : k < cat2.length := by omega
    have hke : k < ents.length := by omega
    -- the visited node at k is a directory
    have hdirn : ((visitSeq (RawFS.dir nm rb es))[k]).isDirNode = true := by
      have := (hptp k hk hk2 hk3).2.1
      rw [← this]
      exact hdirk
    -- catalog[k] coincides with cat2[k] (directories are not plain entries)
    have htypk := (hptp k hk hk2 hk3).2.2.2.2.2.1
    simp only [hdirn, eq_self_iff_true, if_true] at htypk
    have hnotplain : ¬ isPlainEntry cat2[k] := by
      have ht1 : cat2[k].typ = ents[k].typ := (hpres k hke hkc).2.2.2.1
      have ht2 : v.catalog_dirs[k].typ = ents[k].typ := (hpt k hk hkc hke).2.2.1
      have : cat2[k].typ = v.catalog_dirs[k].typ := by rw [ht1, ← ht2]
      rw [isPlainEntry, this, htypk]
      cases ((visitSeq (RawFS.dir nm rb es))[k]).nodeIsLast <;> simp <;> decide
    have hcc : v.catalog_dirs[k] = cat2[k] := (hpt k hk hkc hke).2.2.2.2.2.2 hnotplain
    -- pass 2 rewrote exactly this entry via find_index on `ents`
    have hcat2k := hpw2 k hke hkc
    have hcond : ((0 : Int)).toNat ≤ k ∧ dirAt (bfsN cs0) (k - ((0 : Int)).toNat) = true := by
      refine ⟨by simp, ?_⟩
      have hkb : k - ((0 : Int)).toNat < (bfsN cs0).length := by
        rw [← hvs]
        simpa using hk2
      rw [show k - ((0 : Int)).toNat = k by simp]
      rw [dirAt_eq_isDirNode (bfsN cs0) k (by rw [← hvs]; simpa using hk2)]
      have hkb3 : k < (bfsN cs0).length := by
        rw [← hvs]; simpa using hk2
      have : (bfsN cs0)[k] = (visitSeq (RawFS.dir nm rb es))[k] := by
        simp only [← hvs]
      rw [this]
      exact hdirn
    rw [if_pos hcond] at hcat2k
    have hnidx : v.catalog_dirs[k].next_index =
        Vdfs.find_index ents (intToU32 (k : Int)) := by
      rw [hcc, hcat2k]
    have hku32 : intToU32 (k : Int) = k := intToU32_ofNat (by
      simp only [U32]
      omega)
    -- the catalog search predicate agrees entrywise with the BFS parent tags
    have hparent : ∀ j (hj1 : j < v.catalog_dirs.length)
        (hj2 : j < (buildSeq (RawFS.dir nm rb es)).length),
        (intToU32 (v.catalog_dirs[j]).parent_id == k) =
          (((buildSeq (RawFS.dir nm rb es))[j]).1 == (k : Int)) := by
      intro j hj1 hj2
      have hpe : (v.catalog_dirs[j]).parent_id = ((buildSeq (RawFS.dir nm rb es))[j]).1 :=
        (hptp j hj1 (by omega) hj2).1
      rw [hpe]
      have htag := buildSeq_tags (RawFS.dir nm rb es) ((buildSeq (RawFS.dir nm rb es))[j])
        (List.getElem_mem hj2)
      set t : Int := ((buildSeq (RawFS.dir nm rb es))[j]).1 with hti
      apply Bool.eq_iff_iff.mpr
      simp only [beq_iff_eq]
      rcases htag with hneg | ⟨h0, hlt⟩
      · rw [hneg, intToU32_neg_one]
        simp only [U32]
        omega
      · have : intToU32 t = t.toNat := by
          unfold intToU32
          simp only [U32]
          omega
        rw [this]
        omega
    have hlp : listPosition (fun e => intToU32 e.parent_id == k) v.catalog_dirs =
        listPosition (fun p : Int × FileSystemNode => p.1 == (k : Int))
          (buildSeq (RawFS.dir nm rb es)) := by
      refine listPosition_congr (by omega) (fun j hj1 hj2 => ?_)
      have := hparent j hj1 hj2
      simpa using this
    have hlpe : listPosition (fun e => intToU32 e.parent_id == k) ents =
        listPosition (fun e => intToU32 e.parent_id == k) v.catalog_dirs := by
      refine listPosition_congr (by omega) (fun j hj1 hj2 => ?_)
      have hpe : (v.catalog_dirs[j]).parent_id = ents[j].parent_id :=
        (hpt j hj2 (by omega) hj1).2.2.2.2.1
      simp only [List.get_eq_getElem]
      rw [hpe]
    have hnidx2 : v.catalog_dirs[k].next_index =
        (listPosition (fun e => intToU32 e.parent_id == k) v.catalog_dirs).getD 0 := by
      rw [hnidx, hku32, find_index_eq_getD, hlpe]
    -- the children block
    have hfilter : (buildSeq (RawFS.dir nm rb es)).filter
        (fun p => p.1 == (k : Int)) =
        (((visitSeq (RawFS.dir nm rb es))[k]).childrenOf).map
          (fun c => ((k : Int), c)) := by
      rw [hq0]
      rw [bfsPar_filter_children_aux (qMeasure (cs0.map (fun c => ((-1 : Int), c))))
        (cs0.map (fun c => ((-1 : Int), c))) 0 le_rfl
        (by
          intro p hp
          simp only [List.mem_map] at hp
          obtain ⟨c, _, rfl⟩ := hp
          norm_num)
        (k : Int) (by positivity)]
      rw [show ((k : Int) - 0).toNat = k by simp]
      have hkb : k < (bfsPar (cs0.map (fun c => ((-1 : Int), c))) 0).length := by
        rw [← hq0]
        exact hk3
      rw [List.getElem?_eq_getElem hkb]
      have hsnd : ((bfsPar (cs0.map (fun c => ((-1 : Int), c))) 0)[k]).2 =
          (visitSeq (RawFS.dir nm rb es))[k] := by
        rw [visitSeq_getElem (RawFS.dir nm rb es) k hk2 hk3]
        simp only [hq0]
      simp only []
      rw [hsnd]
    have hfs2 : ((buildSeq (RawFS.dir nm rb es)).filter
        (fun p => p.1 == (k : Int))).map Prod.snd =
        ((visitSeq (RawFS.dir nm rb es))[k]).childrenOf := by
      rw [hfilter, List.map_map]
      simp
    refine ⟨hnidx2, hfs2, ?_, ?_⟩
    · intro hnil
      rw [hnidx2, hlp]
      rw [(listPosition_none_iff _ _).mpr (by rw [hfilter, hnil]; rfl)]
      rfl
    · intro hc
      obtain ⟨c0, crest, hcs⟩ := List.exists_cons_of_ne_nil hc
      have hhead : ((visitSeq (RawFS.dir nm rb es))[k]).childrenOf.head hc = c0 := by
        simp [hcs]
      rw [hhead]
      have hfc : (buildSeq (RawFS.dir nm rb es)).filter
          (fun p => p.1 == (k : Int)) =
          ((k : Int), c0) :: crest.map (fun c => ((k : Int), c)) := by
        rw [hfilter, hcs, List.map_cons]
      obtain ⟨j, hjpos, hjget⟩ := listPosition_of_filter_cons _ _ _ _ hfc
      refine ⟨j, by rw [hlp]; exact hjpos, by rw [hnidx2, hlp, hjpos]; rfl, ?_⟩
      have hjlt : j < (buildSeq (RawFS.dir nm rb es)).length :=
        (List.getElem?_eq_some.mp hjget).1
      have hjv : (buildSeq (RawFS.dir nm rb es))[j] = ((k : Int), c0) := by
        have := List.getElem?_eq_getElem hjlt
        rw [this] at hjget
        exact Option.some.inj hjget
      have hjlt2 : j < (visitSeq (RawFS.dir nm rb es)).length := by omega
      rw [List.getElem?_eq_getElem hjlt2]
      rw [visitSeq_getElem (RawFS.dir nm rb es) j hjlt2 hjlt, hjv]

theorem C1_next_index_witness :
    (vOf (Vdfs.from_dir 0 sampleRaw) dfltV).catalog_dirs.length ≤ 2147483648 ∧
    ∀ k (hk : k < (vOf (Vdfs.from_dir 0 sampleRaw) dfltV).catalog_dirs.length)
      (hk2 : k < (visitSeq sampleRaw).length),
      (vOf (Vdfs.from_dir 0 sampleRaw) dfltV).catalog_dirs[k].is_dir = true →
      (vOf (Vdfs.from_dir 0 sampleRaw) dfltV).catalog_dirs[k].next_index =
        (listPosition (fun e => intToU32 e.parent_id == k)
          (vOf (Vdfs.from_dir 0 sampleRaw) dfltV).catalog_dirs).getD 0 ∧
      ((buildSeq sampleRaw).filter (fun p => p.1 == (k : Int))).map Prod.snd =
        ((visitSeq sampleRaw)[k]).childrenOf ∧
      (((visitSeq sampleRaw)[k]).childrenOf = [] →
        (vOf (Vdfs.from_dir 0 sampleRaw) dfltV).catalog_dirs[k].next_index = 0) ∧
      (∀ hc : ((visitSeq sampleRaw)[k]).childrenOf ≠ [],
        ∃ j, listPosition (fun e => intToU32 e.parent_id == k)
            (vOf (Vdfs.from_dir 0 sampleRaw) dfltV).catalog_dirs = some j ∧
          (vOf (Vdfs.from_dir 0 sampleRaw) dfltV).catalog_dirs[k].next_index = j ∧
          (visitSeq sampleRaw)[j]? = some (((visitSeq sampleRaw)[k]).childrenOf.head hc)) :=
  ⟨by decide, @C1_next_index 0 sampleRaw (vOf (Vdfs.from_dir 0 sampleRaw) dfltV) (by decide) (by rfl) (by decide)⟩
